import Mathlib

/-!
Verification of the Detection & Repair Subsystem of the universal-data-converter
repository.  Text is modelled as `List Char` (the repository operates on
JavaScript strings; we embed them as lists of characters).  JavaScript numbers
used for confidence scores are embedded as rationals; line/column numbers are
naturals (or integers where the source may receive arbitrary numbers).

The shallow embedding below translates, function by function, the code of
  - src/services/repair/jsonRepair.ts   (repairJson and its four passes)
  - src/services/repair/yamlRepair.ts   (repairYaml / repairIndentation)
  - src/services/repair/xmlRepair.ts    (repairXml / repairUnclosedTags)
  - src/services/repair/csvRepair.ts    (repairCsv and its two passes)
  - src/services/formatDetection.ts     (FormatDetectionService)
  - src/services/conversionController.ts (convert, repairSyntax,
    getRepairPreview, highlightProblems)
The authoritative parsers and serializers are external libraries (JSON.parse,
js-yaml, fast-xml-parser, papaparse); they are modelled where needed:
`jsonParseOk` is a JSON-standard validity checker standing for `JSON.parse`,
and small validity under-approximations stand for the other external parsers.
-/

set_option autoImplicit false

/-- Text, as a list of characters (a JavaScript string). -/
abbrev Str := List Char

/-- The double-quote character. -/
def dq : Char := '"'

/-- The backslash character. -/
def bs : Char := '\\'

/-- Model of the JavaScript whitespace class `\s` (and of the characters
removed by `String.prototype.trim`), restricted to the ASCII range. -/
def isWsChar (c : Char) : Bool :=
  c = ' ' || c = '\t' || c = '\n' || c = '\r' || c = '\x0b' || c = '\x0c'

/-- Model of `String.prototype.trim`: drop whitespace from both ends. -/
def trimStr (s : Str) : Str :=
  ((s.dropWhile isWsChar).reverse.dropWhile isWsChar).reverse

/-- Auxiliary splitter: first field and remaining fields. -/
def splitChAux (sep : Char) : Str → Str × List Str
  | [] => ([], [])
  | c :: cs =>
    if c = sep then ([], (splitChAux sep cs).1 :: (splitChAux sep cs).2)
    else (c :: (splitChAux sep cs).1, (splitChAux sep cs).2)

/-- Model of `String.prototype.split(sep)` for a one-character separator:
always returns at least one (possibly empty) field. -/
def splitCh (sep : Char) (s : Str) : List Str :=
  (splitChAux sep s).1 :: (splitChAux sep s).2

/-- Model of `input.split('\n')`. -/
def splitNl (s : Str) : List Str := splitCh '\n' s

/-- Model of `lines.join(sep)` for a one-character separator. -/
def joinCh (sep : Char) : List Str → Str
  | [] => []
  | [l] => l
  | l :: l' :: ls => l ++ sep :: joinCh sep (l' :: ls)

/-- Model of `lines.join('\n')`. -/
def joinNl (ls : List Str) : Str := joinCh '\n' ls

theorem joinCh_splitCh (sep : Char) (s : Str) : joinCh sep (splitCh sep s) = s := by
  induction s with
  | nil => rfl
  | cons c cs ih =>
    by_cases h : c = sep
    · subst h
      simp only [splitCh, splitChAux, if_pos rfl] at *
      simpa [joinCh] using ih
    · simp only [splitCh, splitChAux, if_neg h] at *
      cases hr : (splitChAux sep cs).2 with
      | nil => simp [hr, joinCh] at ih ⊢; exact ih
      | cons x xs => simp [hr, joinCh] at ih ⊢; exact ih

theorem splitChAux_fst_not_sep (sep : Char) (s : Str) : sep ∉ (splitChAux sep s).1 := by
  induction s with
  | nil => simp [splitChAux]
  | cons c cs ih =>
    by_cases h : c = sep
    · simp [splitChAux, h]
    · simp only [splitChAux, if_neg h]
      intro hm
      rcases List.mem_cons.mp hm with h1 | h1
      · exact h h1.symm
      · exact ih h1

theorem splitChAux_snd_sub (sep : Char) (s : Str) :
    ∀ l ∈ (splitChAux sep s).2, ∃ t : Str, (splitChAux sep t).1 = l := by
  induction s with
  | nil => simp [splitChAux]
  | cons c cs ih =>
    by_cases h : c = sep
    · simp only [splitChAux, if_pos h]
      intro l hl
      rcases List.mem_cons.mp hl with h1 | h1
      · exact ⟨cs, h1.symm⟩
      · exact ih l h1
    · simp only [splitChAux, if_neg h]
      exact ih

theorem mem_splitCh_not_sep (sep : Char) (s : Str) :
    ∀ l ∈ splitCh sep s, sep ∉ l := by
  intro l hl
  rcases List.mem_cons.mp hl with h1 | h1
  · exact h1 ▸ splitChAux_fst_not_sep sep s
  · rcases splitChAux_snd_sub sep s l h1 with ⟨t, ht⟩
    exact ht ▸ splitChAux_fst_not_sep sep t

theorem splitChAux_append_no_sep (sep : Char) (l t : Str) (h : sep ∉ l) :
    splitChAux sep (l ++ t) = (l ++ (splitChAux sep t).1, (splitChAux sep t).2) := by
  induction l with
  | nil => simp
  | cons c cs ih =>
    have hc : ¬ c = sep := fun hc => h (hc ▸ List.mem_cons_self c cs)
    have hcs : sep ∉ cs := fun hm => h (List.mem_cons_of_mem c hm)
    simp [splitChAux, hc, ih hcs]

theorem splitCh_joinCh (sep : Char) (ls : List Str)
    (h : ∀ l ∈ ls, sep ∉ l) (hne : ls ≠ []) : splitCh sep (joinCh sep ls) = ls := by
  induction ls with
  | nil => exact absurd rfl hne
  | cons l ls ih =>
    cases ls with
    | nil =>
      have hl : sep ∉ l := h l (List.mem_cons_self l [])
      have haux : splitChAux sep l = (l, []) := by
        have h0 := splitChAux_append_no_sep sep l [] hl
        simpa [splitChAux] using h0
      simp [joinCh, splitCh, haux]
    | cons l' ls' =>
      have hl : sep ∉ l := h l (List.mem_cons_self l _)
      have hrest : ∀ x ∈ l' :: ls', sep ∉ x := fun x hx => h x (List.mem_cons_of_mem l hx)
      have ihr := ih hrest (by simp)
      have hjoin : joinCh sep (l :: l' :: ls') = l ++ sep :: joinCh sep (l' :: ls') := rfl
      simp only [splitCh, hjoin, splitChAux_append_no_sep sep l _ hl]
      simp only [splitChAux, if_pos rfl, List.append_nil]
      simp only [splitCh] at ihr
      rw [ihr]
      simp

theorem joinNl_splitNl (s : Str) : joinNl (splitNl s) = s := joinCh_splitCh '\n' s

theorem splitNl_joinNl (ls : List Str) (h : ∀ l ∈ ls, '\n' ∉ l) (hne : ls ≠ []) :
    splitNl (joinNl ls) = ls := splitCh_joinCh '\n' ls h hne

theorem mem_splitNl_no_nl (s : Str) : ∀ l ∈ splitNl s, '\n' ∉ l :=
  mem_splitCh_not_sep '\n' s

theorem trimStr_eq_nil_iff (l : Str) : trimStr l = [] ↔ l.all isWsChar := by
  constructor
  · intro h
    have h1 : (l.dropWhile isWsChar).reverse.dropWhile isWsChar = [] := by
      simpa [trimStr] using congrArg List.reverse h
    have h2 : ∀ c ∈ (l.dropWhile isWsChar).reverse, isWsChar c := by
      intro c hc
      exact List.dropWhile_eq_nil_iff.mp h1 c hc
    have h3 : ∀ c ∈ l.dropWhile isWsChar, isWsChar c := by
      intro c hc; exact h2 c (List.mem_reverse.mpr hc)
    rw [List.all_eq_true]
    intro c hc
    rcases List.mem_append.mp ((List.takeWhile_append_dropWhile isWsChar l) ▸ hc) with h4 | h4
    · exact List.mem_takeWhile_imp h4
    · exact h3 c h4
  · intro h
    have h1 : l.dropWhile isWsChar = [] := by
      rw [List.dropWhile_eq_nil_iff]
      intro c hc
      exact List.all_eq_true.mp h c hc
    simp [trimStr, h1]

theorem trimStr_ne_nil_of_mem {l : Str} {c : Char} (hc : c ∈ l) (hw : isWsChar c = false) :
    trimStr l ≠ [] := by
  intro h
  have := List.all_eq_true.mp ((trimStr_eq_nil_iff l).mp h) c hc
  rw [hw] at this
  exact Bool.false_ne_true this

/-! ### Core data model (src/types/core.ts) -/

/-- `SupportedFormat = 'json' | 'yaml' | 'xml' | 'csv'`. -/
inductive Format where
  | json | yaml | xml | csv
deriving DecidableEq, Repr

/-- `RepairIssue` from src/types/core.ts. -/
structure RepairIssue where
  line : Nat
  column : Nat
  type : String
  description : String
deriving DecidableEq, Repr

/-- The result of one repair pass (interface `RepairStepResult`). -/
structure RepairStepResult where
  fixed : Bool
  text : Str
  issues : List RepairIssue
  fixes : List String
deriving DecidableEq, Repr

/-- `RepairResult` from src/types/core.ts; `repairedText` is optional there. -/
structure RepairResult where
  success : Bool
  repairedText : Option Str
  issuesFound : List RepairIssue
  appliedFixes : List String
deriving DecidableEq, Repr

/-! ### YAML repair (src/services/repair/yamlRepair.ts) -/

/-- Model of `line.replace(/\t/g, '  ')`: every tab becomes two spaces. -/
def replaceTabs : Str → Str
  | [] => []
  | c :: cs => (if c = '\t' then [' ', ' '] else [c]) ++ replaceTabs cs

/-- The issue recorded by `repairIndentation` for the 0-based line index `i`. -/
def yamlIssue (i : Nat) : RepairIssue :=
  ⟨i + 1, 1, "tab_character", "Tab character in indentation"⟩

/-- Accumulator of a per-line repair loop. -/
structure LinesAcc where
  lines : List Str
  issues : List RepairIssue
  fixes : List String
  fixed : Bool
deriving DecidableEq, Repr

/-- The per-line loop of `repairIndentation` (yamlRepair.ts, lines 46-73):
blank lines are pushed unchanged; a line containing a tab is rewritten with
`replaceTabs` and one `tab_character` issue plus one fix are recorded.  (The
`indentSizes` tally of the source is dead code - it is written but never read -
and is therefore not modelled.) -/
def yamlRepairGo (i : Nat) : List Str → LinesAcc
  | [] => ⟨[], [], [], false⟩
  | l :: ls =>
    let r := yamlRepairGo (i + 1) ls
    if (trimStr l).isEmpty then ⟨l :: r.lines, r.issues, r.fixes, r.fixed⟩
    else if l.contains '\t' then
      ⟨replaceTabs l :: r.lines, yamlIssue i :: r.issues,
        "Converted tabs to spaces" :: r.fixes, true⟩
    else ⟨l :: r.lines, r.issues, r.fixes, r.fixed⟩

/-- `repairIndentation` from yamlRepair.ts. -/
def repairIndentation (input : Str) : RepairStepResult :=
  let r := yamlRepairGo 0 (splitNl input)
  ⟨r.fixed, joinNl r.lines, r.issues, r.fixes⟩

/-- `repairYaml` from yamlRepair.ts: run the indentation pass, merge its
findings only when it fixed something, and succeed iff some fix was applied. -/
def repairYaml (input : Str) : RepairResult :=
  let ind := repairIndentation input
  let repairedText := if ind.fixed then ind.text else input
  let issuesFound := if ind.fixed then ind.issues else []
  let appliedFixes := if ind.fixed then ind.fixes else []
  ⟨decide (0 < appliedFixes.length), some repairedText, issuesFound, appliedFixes⟩

/-- A line is affected by the YAML pass iff it is not whitespace-only and
contains a tab character. -/
def yamlAffected (l : Str) : Bool := !(trimStr l).isEmpty && l.contains '\t'

/-- Declarative form of the YAML per-line rewrite. -/
def yamlFixLine (l : Str) : Str :=
  if (trimStr l).isEmpty then l else if l.contains '\t' then replaceTabs l else l


theorem list_map_id_of {α : Type} (f : α → α) (l : List α) (h : ∀ a ∈ l, f a = a) :
    l.map f = l := by
  induction l with
  | nil => rfl
  | cons a l ih =>
    simp only [List.map_cons, h a (List.mem_cons_self a l)]
    rw [ih (fun x hx => h x (List.mem_cons_of_mem a hx))]

theorem yamlAffected_eq_false {l : Str}
    (h : (trimStr l).isEmpty = true ∨ ¬ ('\t' ∈ l)) :
    yamlAffected l = false := by
  rcases h with h | h <;> simp [yamlAffected, h]

theorem yamlAffected_eq_true {l : Str}
    (h1 : ¬ (trimStr l).isEmpty = true) (h2 : '\t' ∈ l) :
    yamlAffected l = true := by
  simp [yamlAffected, h2]
  simpa using h1

theorem yamlRepairGo_lines (i : Nat) (ls : List Str) :
    (yamlRepairGo i ls).lines = ls.map yamlFixLine := by
  induction ls generalizing i with
  | nil => rfl
  | cons l ls ih =>
    by_cases h1 : (trimStr l).isEmpty
    · simp [yamlRepairGo, yamlFixLine, h1, ih]
    · by_cases h2 : '\t' ∈ l
      · simp [yamlRepairGo, yamlFixLine, h1, h2, ih]
      · simp [yamlRepairGo, yamlFixLine, h1, h2, ih]

theorem yamlRepairGo_fixed (i : Nat) (ls : List Str) :
    (yamlRepairGo i ls).fixed = ls.any yamlAffected := by
  induction ls generalizing i with
  | nil => rfl
  | cons l ls ih =>
    by_cases h1 : (trimStr l).isEmpty
    · have ha := yamlAffected_eq_false (l := l) (Or.inl h1)
      simp [yamlRepairGo, h1, ha, ih]
    · by_cases h2 : '\t' ∈ l
      · have ha := yamlAffected_eq_true h1 h2
        simp [yamlRepairGo, h1, h2, ha]
      · have ha := yamlAffected_eq_false (l := l) (Or.inr h2)
        simp [yamlRepairGo, h1, h2, ha, ih]

theorem yamlRepairGo_fixes (i : Nat) (ls : List Str) :
    (yamlRepairGo i ls).fixes
      = List.replicate (ls.filter yamlAffected).length "Converted tabs to spaces" := by
  induction ls generalizing i with
  | nil => rfl
  | cons l ls ih =>
    by_cases h1 : (trimStr l).isEmpty
    · have ha := yamlAffected_eq_false (l := l) (Or.inl h1)
      simp [yamlRepairGo, h1, ha, ih, List.filter_cons]
    · by_cases h2 : '\t' ∈ l
      · have ha := yamlAffected_eq_true h1 h2
        simp [yamlRepairGo, h1, h2, ha, ih, List.filter_cons, List.replicate_succ]
      · have ha := yamlAffected_eq_false (l := l) (Or.inr h2)
        simp [yamlRepairGo, h1, h2, ha, ih, List.filter_cons]

theorem yamlRepairGo_issues (i : Nat) (ls : List Str) :
    (yamlRepairGo i ls).issues
      = (ls.enumFrom i).filterMap
          (fun p => if yamlAffected p.2 then some (yamlIssue p.1) else none) := by
  induction ls generalizing i with
  | nil => rfl
  | cons l ls ih =>
    by_cases h1 : (trimStr l).isEmpty
    · have ha := yamlAffected_eq_false (l := l) (Or.inl h1)
      simp [yamlRepairGo, h1, ha, ih, List.enumFrom, List.filterMap_cons]
    · by_cases h2 : '\t' ∈ l
      · have ha := yamlAffected_eq_true h1 h2
        simp [yamlRepairGo, h1, h2, ha, ih, List.enumFrom, List.filterMap_cons]
      · have ha := yamlAffected_eq_false (l := l) (Or.inr h2)
        simp [yamlRepairGo, h1, h2, ha, ih, List.enumFrom, List.filterMap_cons]

theorem yamlFixLine_of_not_affected {l : Str} (h : yamlAffected l = false) :
    yamlFixLine l = l := by
  by_cases h1 : (trimStr l).isEmpty
  · simp [yamlFixLine, h1]
  · by_cases h2 : '\t' ∈ l
    · exact absurd h (by simp [yamlAffected_eq_true h1 h2])
    · simp [yamlFixLine, h1, h2]

/-- Full characterization of `repairYaml`: the repaired text replaces every
tab (anywhere in the line) on each non-blank line, whitespace-only lines pass
through unchanged, one `tab_character` issue and one fix are recorded per
affected line, and success holds iff some fix was applied. -/
theorem repairYaml_eq (input : Str) :
    repairYaml input
      = ⟨(splitNl input).any yamlAffected,
         some (joinNl ((splitNl input).map yamlFixLine)),
         (((splitNl input).enumFrom 0).filterMap
           (fun p => if yamlAffected p.2 then some (yamlIssue p.1) else none)),
         List.replicate ((splitNl input).filter yamlAffected).length
           "Converted tabs to spaces"⟩ := by
  have hfixed := yamlRepairGo_fixed 0 (splitNl input)
  have hlines := yamlRepairGo_lines 0 (splitNl input)
  have hiss := yamlRepairGo_issues 0 (splitNl input)
  have hfx := yamlRepairGo_fixes 0 (splitNl input)
  cases hany : (splitNl input).any yamlAffected with
  | true =>
    have hlen : 0 < ((splitNl input).filter yamlAffected).length := by
      rcases List.any_eq_true.mp hany with ⟨l, hl, ha⟩
      exact List.length_pos.mpr (List.ne_nil_of_mem (List.mem_filter.mpr ⟨hl, ha⟩))
    simp [repairYaml, repairIndentation, hfixed, hany, hlines, hiss, hfx, hlen]
  | false =>
    have hall : ∀ l ∈ splitNl input, ¬ yamlAffected l = true := List.any_eq_false.mp hany
    have hmap : (splitNl input).map yamlFixLine = splitNl input :=
      list_map_id_of _ _ (fun l hl =>
        yamlFixLine_of_not_affected (Bool.eq_false_iff.mpr (hall l hl)))
    have hfilter : (splitNl input).filter yamlAffected = [] :=
      List.filter_eq_nil_iff.mpr hall
    have hissues : (((splitNl input).enumFrom 0).filterMap
        (fun p => if yamlAffected p.2 then some (yamlIssue p.1) else none)) = [] := by
      apply List.filterMap_eq_nil_iff.mpr
      intro p hp
      have hm : p.2 ∈ splitNl input := by
        have he := List.enumFrom_map_snd 0 (splitNl input)
        exact he ▸ List.mem_map_of_mem Prod.snd hp
      simp [Bool.eq_false_iff.mpr (hall p.2 hm)]
    simp [repairYaml, repairIndentation, hfixed, hany, hmap, hfilter, hissues,
      joinNl_splitNl]

theorem any_iff_filter_pos {α : Type} (p : α → Bool) (ls : List α) :
    ls.any p = true ↔ 0 < (ls.filter p).length := by
  constructor
  · intro h
    rcases List.any_eq_true.mp h with ⟨l, hl, hp⟩
    exact List.length_pos.mpr (List.ne_nil_of_mem (List.mem_filter.mpr ⟨hl, hp⟩))
  · intro h
    rcases List.exists_mem_of_ne_nil _ (List.length_pos.mp h) with ⟨l, hl⟩
    rcases List.mem_filter.mp hl with ⟨hm, hp⟩
    exact List.any_eq_true.mpr ⟨l, hm, hp⟩

/-- C3, corrected: `repairYaml` is the single pass `repairIndentation`, which
replaces every tab character on each line that has non-whitespace content
(throughout the line, not only within the leading indentation) with two spaces
each, leaves whitespace-only lines unchanged even when they contain tabs,
records one `tab_character` issue per affected line, and succeeds exactly when
`appliedFixes` is non-empty. -/
theorem claim_C3_yaml_tab_pass (input : Str) :
    repairYaml input
      = ⟨(splitNl input).any yamlAffected,
         some (joinNl ((splitNl input).map yamlFixLine)),
         (((splitNl input).enumFrom 0).filterMap
           (fun p => if yamlAffected p.2 then some (yamlIssue p.1) else none)),
         List.replicate ((splitNl input).filter yamlAffected).length
           "Converted tabs to spaces"⟩
    ∧ ((repairYaml input).success = true ↔ (repairYaml input).appliedFixes ≠ []) := by
  refine ⟨repairYaml_eq input, ?_⟩
  rw [repairYaml_eq input]
  simp only [any_iff_filter_pos]
  constructor
  · intro h
    simp only [ne_eq, List.replicate_eq_nil_iff]
    omega
  · intro h
    simp only [ne_eq, List.replicate_eq_nil_iff] at h
    omega

/-- C3 is false as stated: in `"a:\tb"` the only tab appears after
non-whitespace content (the leading indentation is empty), yet `repairYaml`
rewrites it to two spaces and records a fix, where the claim predicts the
line is left unchanged with no recorded fixes. -/
theorem claim_C3_counterexample :
    (repairYaml ("a:\tb".toList)).repairedText = some ("a:  b".toList)
    ∧ some ("a:  b".toList) ≠ some ("a:\tb".toList)
    ∧ (repairYaml ("a:\tb".toList)).appliedFixes ≠ [] := by
  refine ⟨by decide, by decide, by decide⟩

/-! ### highlightProblems (conversionController.ts, lines 226-261) -/

/-- An error position handed to `highlightProblems` (`{line, column}`);
JavaScript numbers, so modelled as integers. -/
structure ErrPos where
  line : Int
  column : Int
deriving DecidableEq, Repr

/-- `Highlight` as produced by `highlightProblems`. -/
structure Highlight where
  line : Int
  column : Int
  lineText : Str
  highlightStart : Int
  highlightEnd : Int
deriving DecidableEq, Repr

/-- `highlightProblems` from conversionController.ts: for each error whose
line is in range, highlight up to ten characters starting at the error
column; out-of-range lines are skipped. -/
def highlightProblems (input : Str) (errors : List ErrPos) : List Highlight :=
  let lines := splitNl input
  errors.filterMap (fun e =>
    let lineIndex : Int := e.line - 1
    if 0 ≤ lineIndex ∧ lineIndex < (lines.length : Int) then
      let lineText := lines.getD lineIndex.toNat []
      let highlightStart := max 0 (e.column - 1)
      let highlightEnd := min (lineText.length : Int) (highlightStart + 10)
      some ⟨e.line, e.column, lineText, highlightStart, highlightEnd⟩
    else none)

/-- C2, corrected: every produced highlight satisfies
`0 <= highlightStart` and `highlightEnd <= lineText.length` (the middle strict
inequality `highlightStart < highlightEnd` of the original claim does not
hold, e.g. on an empty line). -/
theorem claim_C2_highlight_bounds (input : Str) (errors : List ErrPos) :
    ∀ h ∈ highlightProblems input errors,
      0 ≤ h.highlightStart ∧ h.highlightEnd ≤ (h.lineText.length : Int) := by
  intro h hm
  rcases List.mem_filterMap.mp hm with ⟨e, _, he⟩
  simp only [highlightProblems] at he
  split at he
  · injection he with he2
    subst he2
    exact ⟨le_max_left 0 _, min_le_left _ _⟩
  · cases he

/-- Witness for C2 at a concrete input. -/
theorem claim_C2_highlight_bounds_witness :
    0 ≤ (Highlight.mk 1 1 ("ab".toList) 0 2).highlightStart
    ∧ (Highlight.mk 1 1 ("ab".toList) 0 2).highlightEnd
        ≤ ((Highlight.mk 1 1 ("ab".toList) 0 2).lineText.length : Int) :=
  claim_C2_highlight_bounds ("ab\ncd".toList) [⟨1, 1⟩]
    (Highlight.mk 1 1 ("ab".toList) 0 2) (by decide)

/-- C2 is false as stated: on the empty input with an error at line 1,
column 1, the produced highlight has `highlightStart = highlightEnd = 0`,
violating the claimed strict inequality
`highlightStart < highlightEnd`. -/
theorem claim_C2_counterexample :
    highlightProblems [] [⟨1, 1⟩] = [⟨1, 1, [], 0, 0⟩]
    ∧ ¬ ((Highlight.mk 1 1 [] 0 0).highlightStart
          < (Highlight.mk 1 1 [] 0 0).highlightEnd) := by
  refine ⟨by decide, by decide⟩

/-! ### CSV repair (src/services/repair/csvRepair.ts) -/

/-- Count unescaped quotes in a CSV line; a doubled quote `""` is an escape
and is skipped (csvRepair.ts, lines 55-64).  The source loop, on a quote at
position `j`, skips `j+1` as well when it is also a quote, and otherwise
counts one quote and moves on; when the counted quote is followed by a
non-quote character that character contributes nothing, so the loop is
equivalent to the structural recursion below. -/
def csvQuoteCount : Str → Nat
  | [] => 0
  | [c] => if c = dq then 1 else 0
  | c :: c2 :: cs2 =>
    if c = dq then (if c2 = dq then 0 else 1) + csvQuoteCount cs2
    else csvQuoteCount (c2 :: cs2)

/-- Whether a CSV line has an odd number of unescaped quotes. -/
def csvQuoteOdd (l : Str) : Bool := csvQuoteCount l % 2 = 1

/-- The per-line rewrite of the CSV quote pass: append a closing quote on an
odd quote count. -/
def csvFixLine (l : Str) : Str := if csvQuoteOdd l then l ++ [dq] else l

/-- Per-line loop of the CSV `repairUnclosedQuotes` (csvRepair.ts 51-80). -/
def csvQuoteGo (i : Nat) : List Str → LinesAcc
  | [] => ⟨[], [], [], false⟩
  | l :: ls =>
    let r := csvQuoteGo (i + 1) ls
    if csvQuoteOdd l then
      ⟨(l ++ [dq]) :: r.lines,
        ⟨i + 1, (l ++ [dq]).length, "unclosed_quote", "Unclosed quote in CSV field"⟩
          :: r.issues,
        "Added closing quote" :: r.fixes, true⟩
    else ⟨l :: r.lines, r.issues, r.fixes, r.fixed⟩

/-- The CSV `repairUnclosedQuotes` pass. -/
def csvRepairUnclosedQuotes (input : Str) : RepairStepResult :=
  let r := csvQuoteGo 0 (splitNl input)
  ⟨r.fixed, joinNl r.lines, r.issues, r.fixes⟩

/-- The candidate delimiters, in source order (csvRepair.ts, line 100). -/
def delimiters : List Char := [',', ';', '\t', '|']

/-- Replace every occurrence of one character by another
(`line.replace(new RegExp('\\' + delimiter, 'g'), primaryDelimiter)`). -/
def replaceChar (d rep : Char) (l : Str) : Str :=
  l.map (fun c => if c = d then rep else c)

/-- Total occurrence count of a delimiter over the (non-blank) lines. -/
def csvTotalCount (d : Char) (lines : List Str) : Nat :=
  lines.foldl (fun acc l => acc + l.count d) 0

/-- Select the most common delimiter: iterate the tallies in insertion order,
keeping the first delimiter with a strictly larger count
(csvRepair.ts, lines 110-119); the default is `','`. -/
def csvPrimary (lines : List Str) : Char :=
  (delimiters.foldl
    (fun pm d => if pm.2 < csvTotalCount d lines then (d, csvTotalCount d lines) else pm)
    (',', 0)).1

/-- One step of the per-line delimiter rewrite: if `d` is not the primary
delimiter and the current line contains it, replace it throughout, marking the
line modified when the text changed (csvRepair.ts, lines 129-139). -/
def csvRewriteStep (primary : Char) (st : Str × Bool) (d : Char) : Str × Bool :=
  if d ≠ primary ∧ st.1.contains d then
    if replaceChar d primary st.1 ≠ st.1 then (replaceChar d primary st.1, true) else st
  else st

/-- Rewrite one line: every non-primary delimiter it contains is replaced by
the primary one; the flag records whether the line changed
(csvRepair.ts, lines 125-139). -/
def csvRewriteLine (primary : Char) (l : Str) : Str × Bool :=
  delimiters.foldl (csvRewriteStep primary) (l, false)

/-- The fix string `Normalized delimiter to '<d>'`. -/
def csvNormFix (d : Char) : String :=
  "Normalized delimiter to '" ++ String.singleton d ++ "'"

/-- The issue description `Inconsistent delimiter, normalized to '<d>'`. -/
def csvNormDesc (d : Char) : String :=
  "Inconsistent delimiter, normalized to '" ++ String.singleton d ++ "'"

/-- Per-line loop of `repairInconsistentDelimiters` (csvRepair.ts 125-152). -/
def csvDelimGo (primary : Char) (i : Nat) : List Str → LinesAcc
  | [] => ⟨[], [], [], false⟩
  | l :: ls =>
    let r := csvDelimGo primary (i + 1) ls
    let rw := csvRewriteLine primary l
    if rw.2 then
      ⟨rw.1 :: r.lines,
        ⟨i + 1, 1, "inconsistent_delimiter", csvNormDesc primary⟩ :: r.issues,
        csvNormFix primary :: r.fixes, true⟩
    else ⟨rw.1 :: r.lines, r.issues, r.fixes, r.fixed⟩

/-- `repairInconsistentDelimiters` from csvRepair.ts: blank lines are dropped
by the initial filter, the dominant delimiter is selected, and every line
containing another delimiter is rewritten. -/
def repairInconsistentDelimiters (input : Str) : RepairStepResult :=
  let lines := (splitNl input).filter (fun l => !(trimStr l).isEmpty)
  if lines.isEmpty then ⟨false, input, [], []⟩
  else
    let primary := csvPrimary lines
    let r := csvDelimGo primary 0 lines
    ⟨r.fixed, joinNl r.lines, r.issues, r.fixes⟩

/-- The text handed to the delimiter pass inside `repairCsv`: the quote pass
output when that pass fixed something, the original input otherwise. -/
def csvDelimTextInput (input : Str) : Str :=
  let q := csvRepairUnclosedQuotes input
  if q.fixed then q.text else input

/-- `repairCsv` from csvRepair.ts: quote pass, then delimiter pass, merging
findings of each pass only when it fixed something; success iff some fix was
applied. -/
def repairCsv (input : Str) : RepairResult :=
  let q := csvRepairUnclosedQuotes input
  let is1 := if q.fixed then q.issues else []
  let fx1 := if q.fixed then q.fixes else []
  let d := repairInconsistentDelimiters (csvDelimTextInput input)
  let repairedText := if d.fixed then d.text else csvDelimTextInput input
  let issuesFound := is1 ++ (if d.fixed then d.issues else [])
  let appliedFixes := fx1 ++ (if d.fixed then d.fixes else [])
  ⟨decide (0 < appliedFixes.length), some repairedText, issuesFound, appliedFixes⟩

theorem splitNl_ne_nil (s : Str) : splitNl s ≠ [] := by
  simp [splitNl, splitCh]

theorem csvQuoteCount_cons_ne {c : Char} (cs : Str) (hc : ¬ c = dq) :
    csvQuoteCount (c :: cs) = csvQuoteCount cs := by
  cases cs with
  | nil => simp [csvQuoteCount, hc]
  | cons c2 cs2 => simp [csvQuoteCount, hc]

theorem csvQuoteCount_of_no_dq : ∀ l : Str, dq ∉ l → csvQuoteCount l = 0 := by
  intro l
  induction l with
  | nil => intro _; rfl
  | cons c cs ih =>
    intro h
    have hc : ¬ c = dq := fun hc => h (hc ▸ List.mem_cons_self c cs)
    have hrest : dq ∉ cs := fun hm => h (List.mem_cons_of_mem c hm)
    rw [csvQuoteCount_cons_ne cs hc]
    exact ih hrest

theorem csvFixLine_blank {l : Str} (h : (trimStr l).isEmpty = true) :
    csvFixLine l = l := by
  have hall : l.all isWsChar := (trimStr_eq_nil_iff l).mp (List.isEmpty_iff.mp h)
  have hdq : dq ∉ l := by
    intro hm
    have := List.all_eq_true.mp hall dq hm
    simp [isWsChar, dq] at this
  have hodd : csvQuoteOdd l = false := by
    simp [csvQuoteOdd, csvQuoteCount_of_no_dq l hdq]
  simp [csvFixLine, hodd]

theorem csvFixLine_nonblank {l : Str} (h : ¬ (trimStr l).isEmpty = true) :
    ¬ (trimStr (csvFixLine l)).isEmpty = true := by
  have hne : trimStr l ≠ [] := fun hl => h (List.isEmpty_iff.mpr hl)
  have hex : ∃ c ∈ l, isWsChar c = false := by
    by_contra hno
    push_neg at hno
    apply hne
    rw [trimStr_eq_nil_iff, List.all_eq_true]
    intro c hc
    cases hb : isWsChar c with
    | true => rfl
    | false => exact absurd hb (hno c hc)
  rcases hex with ⟨c, hc, hw⟩
  unfold csvFixLine
  split
  · intro hbad
    exact trimStr_ne_nil_of_mem (List.mem_append_left [dq] hc) hw
      (List.isEmpty_iff.mp hbad)
  · exact h

theorem csvFixLine_no_nl {l : Str} (h : '\n' ∉ l) : '\n' ∉ csvFixLine l := by
  unfold csvFixLine
  split
  · intro hm
    rcases List.mem_append.mp hm with hm | hm
    · exact h hm
    · simp [dq] at hm
  · exact h

theorem csvQuoteGo_lines (i : Nat) (ls : List Str) :
    (csvQuoteGo i ls).lines = ls.map csvFixLine := by
  induction ls generalizing i with
  | nil => rfl
  | cons l ls ih =>
    by_cases h : csvQuoteOdd l
    · simp [csvQuoteGo, csvFixLine, h, ih]
    · simp [csvQuoteGo, csvFixLine, h, ih]

theorem csvQuoteGo_fixed (i : Nat) (ls : List Str) :
    (csvQuoteGo i ls).fixed = ls.any csvQuoteOdd := by
  induction ls generalizing i with
  | nil => rfl
  | cons l ls ih =>
    by_cases h : csvQuoteOdd l
    · simp [csvQuoteGo, h]
    · simp [csvQuoteGo, h, ih]

theorem csvQuoteGo_issues_mem (i : Nat) (ls : List Str) :
    ∀ x ∈ (csvQuoteGo i ls).issues, x.type = "unclosed_quote" := by
  induction ls generalizing i with
  | nil => simp [csvQuoteGo]
  | cons l ls ih =>
    by_cases h : csvQuoteOdd l
    · simp only [csvQuoteGo, h, if_pos]
      intro x hx
      rcases List.mem_cons.mp hx with hx | hx
      · simp [hx]
      · exact ih (i + 1) x hx
    · simp only [csvQuoteGo, h]
      simpa using ih (i + 1)

theorem csvQuoteGo_fixes_mem (i : Nat) (ls : List Str) :
    ∀ x ∈ (csvQuoteGo i ls).fixes, x = "Added closing quote" := by
  induction ls generalizing i with
  | nil => simp [csvQuoteGo]
  | cons l ls ih =>
    by_cases h : csvQuoteOdd l
    · simp only [csvQuoteGo, h, if_pos]
      intro x hx
      rcases List.mem_cons.mp hx with hx | hx
      · exact hx
      · exact ih (i + 1) x hx
    · simp only [csvQuoteGo, h]
      simpa using ih (i + 1)

/-- The text handed to the delimiter pass equals the quote-fixed lines joined
back together, whether or not the quote pass fixed anything. -/
theorem csvDelimTextInput_eq (input : Str) :
    csvDelimTextInput input = joinNl ((splitNl input).map csvFixLine) := by
  unfold csvDelimTextInput
  by_cases h : (csvRepairUnclosedQuotes input).fixed
  · simp only [h, if_pos]
    simp [csvRepairUnclosedQuotes, csvQuoteGo_lines]
  · simp only [h]
    have hany : (splitNl input).any csvQuoteOdd = false := by
      have := csvQuoteGo_fixed 0 (splitNl input)
      simp only [csvRepairUnclosedQuotes] at h
      rw [← this]
      exact Bool.eq_false_iff.mpr (by simpa using h)
    have hall := List.any_eq_false.mp hany
    have hmap : (splitNl input).map csvFixLine = splitNl input :=
      list_map_id_of _ _ (fun l hl => by
        simp [csvFixLine, Bool.eq_false_iff.mpr (hall l hl)])
    simp [hmap, joinNl_splitNl]

theorem splitNl_csvDelimTextInput (input : Str) :
    splitNl (csvDelimTextInput input) = (splitNl input).map csvFixLine := by
  rw [csvDelimTextInput_eq]
  apply splitNl_joinNl
  · intro l hl
    rcases List.mem_map.mp hl with ⟨l0, hl0, rfl⟩
    exact csvFixLine_no_nl (mem_splitNl_no_nl input l0 hl0)
  · simp [splitNl_ne_nil input]

theorem mem_replaceChar {x d rep : Char} {l : Str} (h : x ∈ replaceChar d rep l) :
    x = rep ∨ x ∈ l := by
  rcases List.mem_map.mp h with ⟨c, hc, hcx⟩
  by_cases hcd : c = d
  · left; simp [hcd] at hcx; exact hcx.symm
  · right; simp [hcd] at hcx; exact hcx ▸ hc

theorem csvRewriteStep_no_nl {p : Char} (hp : p ≠ '\n') {st : Str × Bool} {d : Char}
    (h : '\n' ∉ st.1) : '\n' ∉ (csvRewriteStep p st d).1 := by
  unfold csvRewriteStep
  split
  · split
    · intro hm
      rcases mem_replaceChar hm with hm | hm
      · exact hp hm.symm
      · exact h hm
    · exact h
  · exact h

theorem csvRewriteLine_no_nl {p : Char} (hp : p ≠ '\n') {l : Str} (h : '\n' ∉ l) :
    '\n' ∉ (csvRewriteLine p l).1 := by
  unfold csvRewriteLine
  have hgen : ∀ (ds : List Char) (st : Str × Bool), '\n' ∉ st.1 →
      '\n' ∉ (ds.foldl (csvRewriteStep p) st).1 := by
    intro ds
    induction ds with
    | nil => intro st h0; exact h0
    | cons d ds ih => intro st h0; exact ih _ (csvRewriteStep_no_nl hp h0)
  exact hgen delimiters (l, false) h

theorem csvPrimary_ne_nl (lines : List Str) : csvPrimary lines ≠ '\n' := by
  unfold csvPrimary delimiters
  simp only [List.foldl]
  split_ifs <;> simp

theorem csvDelimGo_lines (p : Char) (i : Nat) (ls : List Str) :
    (csvDelimGo p i ls).lines = ls.map (fun l => (csvRewriteLine p l).1) := by
  induction ls generalizing i with
  | nil => rfl
  | cons l ls ih =>
    by_cases h : (csvRewriteLine p l).2
    · simp [csvDelimGo, h, ih]
    · simp [csvDelimGo, h, ih]

theorem csvDelimGo_issues_mem (p : Char) (i : Nat) (ls : List Str) :
    ∀ x ∈ (csvDelimGo p i ls).issues, x.type = "inconsistent_delimiter" := by
  induction ls generalizing i with
  | nil => simp [csvDelimGo]
  | cons l ls ih =>
    by_cases h : (csvRewriteLine p l).2
    · simp only [csvDelimGo, h, if_pos]
      intro x hx
      rcases List.mem_cons.mp hx with hx | hx
      · simp [hx]
      · exact ih (i + 1) x hx
    · simp only [csvDelimGo, h]
      simpa using ih (i + 1)

theorem csvDelimGo_fixes_mem (p : Char) (i : Nat) (ls : List Str) :
    ∀ x ∈ (csvDelimGo p i ls).fixes, x = csvNormFix p := by
  induction ls generalizing i with
  | nil => simp [csvDelimGo]
  | cons l ls ih =>
    by_cases h : (csvRewriteLine p l).2
    · simp only [csvDelimGo, h, if_pos]
      intro x hx
      rcases List.mem_cons.mp hx with hx | hx
      · exact hx
      · exact ih (i + 1) x hx
    · simp only [csvDelimGo, h]
      simpa using ih (i + 1)

theorem csvFixLine_blank_pointwise (l : Str) :
    (!(trimStr (csvFixLine l)).isEmpty) = (!(trimStr l).isEmpty) := by
  by_cases hb : (trimStr l).isEmpty
  · rw [csvFixLine_blank hb]
  · have h2 := csvFixLine_nonblank hb
    rw [Bool.eq_false_iff.mpr h2, Bool.eq_false_iff.mpr hb]

/-- C10: whenever the delimiter-normalization pass of `repairCsv` rewrites at
least one line, the returned repaired text consists exactly of the per-line
rewrites of the non-blank lines of the input (so every blank or
whitespace-only input line has been deleted), while the recorded issues and
fixes only ever mention unclosed quotes or delimiter normalization - the
deletion of blank lines is reported nowhere. -/
theorem claim_C10_csv_blank_line_deletion (input : Str)
    (hfix : (repairInconsistentDelimiters (csvDelimTextInput input)).fixed = true) :
    (repairCsv input).repairedText
        = some (repairInconsistentDelimiters (csvDelimTextInput input)).text
    ∧ splitNl (repairInconsistentDelimiters (csvDelimTextInput input)).text
        = ((splitNl input).filter (fun l => !(trimStr l).isEmpty)).map
            (fun l =>
              (csvRewriteLine
                (csvPrimary ((splitNl (csvDelimTextInput input)).filter
                  (fun l => !(trimStr l).isEmpty)))
                (csvFixLine l)).1)
    ∧ (∀ i ∈ (repairCsv input).issuesFound,
        i.type = "unclosed_quote" ∨ i.type = "inconsistent_delimiter")
    ∧ (∀ f ∈ (repairCsv input).appliedFixes,
        f = "Added closing quote" ∨ ∃ d, f = csvNormFix d) := by
  have hlines_ne :
      ¬ ((splitNl (csvDelimTextInput input)).filter
          (fun l => !(trimStr l).isEmpty)).isEmpty = true := by
    intro hemp
    rw [repairInconsistentDelimiters] at hfix
    simp only [hemp, if_pos] at hfix
    exact Bool.false_ne_true hfix
  have hd_eq : repairInconsistentDelimiters (csvDelimTextInput input)
      = ⟨(csvDelimGo
            (csvPrimary ((splitNl (csvDelimTextInput input)).filter
              (fun l => !(trimStr l).isEmpty)))
            0
            ((splitNl (csvDelimTextInput input)).filter
              (fun l => !(trimStr l).isEmpty))).fixed,
          joinNl (csvDelimGo
            (csvPrimary ((splitNl (csvDelimTextInput input)).filter
              (fun l => !(trimStr l).isEmpty)))
            0
            ((splitNl (csvDelimTextInput input)).filter
              (fun l => !(trimStr l).isEmpty))).lines,
          (csvDelimGo
            (csvPrimary ((splitNl (csvDelimTextInput input)).filter
              (fun l => !(trimStr l).isEmpty)))
            0
            ((splitNl (csvDelimTextInput input)).filter
              (fun l => !(trimStr l).isEmpty))).issues,
          (csvDelimGo
            (csvPrimary ((splitNl (csvDelimTextInput input)).filter
              (fun l => !(trimStr l).isEmpty)))
            0
            ((splitNl (csvDelimTextInput input)).filter
              (fun l => !(trimStr l).isEmpty))).fixes⟩ := by
    simp [repairInconsistentDelimiters, hlines_ne]
  have hfilter : (splitNl (csvDelimTextInput input)).filter (fun l => !(trimStr l).isEmpty)
      = ((splitNl input).filter (fun l => !(trimStr l).isEmpty)).map csvFixLine := by
    rw [splitNl_csvDelimTextInput, List.filter_map]
    congr 1
    apply List.filter_congr
    intro l _
    simpa [Function.comp] using csvFixLine_blank_pointwise l
  refine ⟨?_, ?_, ?_, ?_⟩
  · simp [repairCsv, hfix]
  · rw [hd_eq]
    simp only
    rw [csvDelimGo_lines]
    rw [splitNl_joinNl]
    · rw [hfilter, List.map_map]
      rfl
    · intro l hl
      rcases List.mem_map.mp hl with ⟨l0, hl0, rfl⟩
      have hml0 : l0 ∈ splitNl (csvDelimTextInput input) := (List.mem_filter.mp hl0).1
      exact csvRewriteLine_no_nl (csvPrimary_ne_nl _) (mem_splitNl_no_nl _ l0 hml0)
    · intro hnil
      apply hlines_ne
      rw [List.isEmpty_iff]
      exact List.map_eq_nil_iff.mp hnil
  · intro i hi
    simp only [repairCsv] at hi
    rcases List.mem_append.mp hi with hi | hi
    · by_cases hq : (csvRepairUnclosedQuotes input).fixed
      · simp only [hq, if_pos] at hi
        left
        exact csvQuoteGo_issues_mem 0 (splitNl input) i hi
      · simp only [hq] at hi
        simp at hi
    · simp only [hfix, if_pos] at hi
      rw [hd_eq] at hi
      right
      exact csvDelimGo_issues_mem _ 0 _ i hi
  · intro f hf
    simp only [repairCsv] at hf
    rcases List.mem_append.mp hf with hf | hf
    · by_cases hq : (csvRepairUnclosedQuotes input).fixed
      · simp only [hq, if_pos] at hf
        left
        exact csvQuoteGo_fixes_mem 0 (splitNl input) f hf
      · simp only [hq] at hf
        simp at hf
    · simp only [hfix, if_pos] at hf
      rw [hd_eq] at hf
      right
      exact ⟨_, csvDelimGo_fixes_mem _ 0 _ f hf⟩

/-- Witness for C10: the input `"a,b\n \n1;2"` has a whitespace-only middle
line and a line with an inconsistent `;` delimiter; the repaired text is
`"a,b\n1,2"`, with the blank line silently gone. -/
theorem claim_C10_csv_blank_line_deletion_witness :
    (repairCsv ("a,b\n \n1;2".toList)).repairedText
        = some (repairInconsistentDelimiters (csvDelimTextInput ("a,b\n \n1;2".toList))).text
    ∧ splitNl (repairInconsistentDelimiters
          (csvDelimTextInput ("a,b\n \n1;2".toList))).text
        = ((splitNl ("a,b\n \n1;2".toList)).filter (fun l => !(trimStr l).isEmpty)).map
            (fun l =>
              (csvRewriteLine
                (csvPrimary ((splitNl (csvDelimTextInput ("a,b\n \n1;2".toList))).filter
                  (fun l => !(trimStr l).isEmpty)))
                (csvFixLine l)).1)
    ∧ (∀ i ∈ (repairCsv ("a,b\n \n1;2".toList)).issuesFound,
        i.type = "unclosed_quote" ∨ i.type = "inconsistent_delimiter")
    ∧ (∀ f ∈ (repairCsv ("a,b\n \n1;2".toList)).appliedFixes,
        f = "Added closing quote" ∨ ∃ d, f = csvNormFix d) :=
  claim_C10_csv_blank_line_deletion ("a,b\n \n1;2".toList) (by decide)

/-! ### JSON validity (model of the external authoritative parser JSON.parse)

`JSON.parse` is an external, standards-defined parser (ECMA-404 / RFC 8259);
its source is not part of this repository.  `jsonParseOk` below is a direct
recursive-descent acceptor of the JSON grammar: a value is an object, array,
string, number, `true`, `false` or `null`; insignificant whitespace is space,
tab, newline and carriage return.  The fuel argument only bounds the nesting
recursion and is always called with more fuel than any input can consume. -/

/-- JSON insignificant whitespace. -/
def isJWs (c : Char) : Bool := c = ' ' || c = '\t' || c = '\n' || c = '\r'

/-- Skip JSON whitespace. -/
def skipJWs (s : Str) : Str := s.dropWhile isJWs

/-- Hexadecimal digit, for `\uXXXX` escapes. -/
def isHexDigit (c : Char) : Bool :=
  c.isDigit || ('a' ≤ c && c ≤ 'f') || ('A' ≤ c && c ≤ 'F')

/-- Accept the remainder of a JSON string, after the opening quote; return
the text after the closing quote. -/
def jstringRest : Str → Option Str
  | [] => none
  | c :: cs =>
    if c = dq then some cs
    else if c = bs then
      match cs with
      | [] => none
      | e :: cs2 =>
        if e = dq || e = bs || e = '/' || e = 'b' || e = 'f' || e = 'n' || e = 'r' || e = 't'
        then jstringRest cs2
        else if e = 'u' then
          match cs2 with
          | h1 :: h2 :: h3 :: h4 :: cs3 =>
            if isHexDigit h1 && isHexDigit h2 && isHexDigit h3 && isHexDigit h4
            then jstringRest cs3 else none
          | _ => none
        else none
    else if c.toNat < 0x20 then none
    else jstringRest cs

/-- Accept an optional fraction and exponent of a JSON number. -/
def jfracExp (s : Str) : Option Str :=
  let afterFrac : Option Str :=
    match s with
    | '.' :: cs =>
      match cs with
      | d :: _ => if d.isDigit then some (cs.dropWhile Char.isDigit) else none
      | [] => none
    | _ => some s
  match afterFrac with
  | none => none
  | some r =>
    match r with
    | e :: cs =>
      if e = 'e' || e = 'E' then
        let cs2 := match cs with
          | c :: cs3 => if c = '+' || c = '-' then cs3 else cs
          | [] => cs
        match cs2 with
        | d :: _ => if d.isDigit then some (cs2.dropWhile Char.isDigit) else none
        | [] => none
      else some r
    | [] => some r

/-- Accept a JSON number (`-? int frac? exp?`). -/
def jnumRest (s : Str) : Option Str :=
  let s1 := match s with
    | c :: cs => if c = '-' then cs else s
    | [] => s
  match s1 with
  | c :: cs =>
    if c = '0' then jfracExp cs
    else if c.isDigit then jfracExp (cs.dropWhile Char.isDigit)
    else none
  | [] => none

/-- Parsing modes of the JSON acceptor: a value, the inside of an object
right after `{`, the continuation of an object after a member, and the
corresponding array modes. -/
inductive JMode where
  | value | objBody | objTail | arrBody | arrTail
deriving DecidableEq, Repr

/-- The JSON acceptor; returns the unconsumed remainder on success. -/
def jrun : Nat → JMode → Str → Option Str
  | 0, _, _ => none
  | fuel+1, JMode.value, s =>
    match s with
    | [] => none
    | c :: cs =>
      if c = '{' then jrun fuel JMode.objBody (skipJWs cs)
      else if c = '[' then jrun fuel JMode.arrBody (skipJWs cs)
      else if c = dq then jstringRest cs
      else
        match c :: cs with
        | 't' :: 'r' :: 'u' :: 'e' :: r => some r
        | 'f' :: 'a' :: 'l' :: 's' :: 'e' :: r => some r
        | 'n' :: 'u' :: 'l' :: 'l' :: r => some r
        | s' => jnumRest s'
  | fuel+1, JMode.objBody, s =>
    match s with
    | [] => none
    | c :: cs =>
      if c = '}' then some cs
      else if c = dq then
        match jstringRest cs with
        | none => none
        | some r1 =>
          match skipJWs r1 with
          | [] => none
          | c2 :: r2 =>
            if c2 = ':' then
              match jrun fuel JMode.value (skipJWs r2) with
              | none => none
              | some r3 => jrun fuel JMode.objTail (skipJWs r3)
            else none
      else none
  | fuel+1, JMode.objTail, s =>
    match s with
    | [] => none
    | c :: cs =>
      if c = '}' then some cs
      else if c = ',' then
        match skipJWs cs with
        | [] => none
        | c2 :: r1 =>
          if c2 = dq then
            match jstringRest r1 with
            | none => none
            | some r2 =>
              match skipJWs r2 with
              | [] => none
              | c3 :: r3 =>
                if c3 = ':' then
                  match jrun fuel JMode.value (skipJWs r3) with
                  | none => none
                  | some r4 => jrun fuel JMode.objTail (skipJWs r4)
                else none
          else none
      else none
  | fuel+1, JMode.arrBody, s =>
    match s with
    | [] => none
    | c :: cs =>
      if c = ']' then some cs
      else
        match jrun fuel JMode.value (c :: cs) with
        | none => none
        | some r => jrun fuel JMode.arrTail (skipJWs r)
  | fuel+1, JMode.arrTail, s =>
    match s with
    | [] => none
    | c :: cs =>
      if c = ']' then some cs
      else if c = ',' then
        match jrun fuel JMode.value (skipJWs cs) with
        | none => none
        | some r => jrun fuel JMode.arrTail (skipJWs r)
      else none

/-- Modelled from the spec: validity under the authoritative JSON parser
(`JSON.parse`, an external library function not part of this repository):
the input is a complete JSON value surrounded only by whitespace. -/
def jsonParseOk (s : Str) : Bool :=
  match jrun (s.length + 1) JMode.value (skipJWs s) with
  | some r => (skipJWs r).isEmpty
  | none => false

theorem jsonParseOk_nil : jsonParseOk [] = false := rfl

theorem ne_nil_of_jsonParseOk {s : Str} (h : jsonParseOk s = true) : s ≠ [] := by
  intro hnil
  rw [hnil, jsonParseOk_nil] at h
  exact Bool.false_ne_true h

/-! ### JSON repair (src/services/repair/jsonRepair.ts) -/

/-- `getLineAndColumn` (jsonRepair.ts, lines 297-303): 1-based line and
column of a character offset, computed by splitting the prefix at newlines. -/
def lineCol (pin : Str) (offset : Nat) : Nat × Nat :=
  let ls := splitNl (pin.take offset)
  (ls.length, (ls.getLastD []).length + 1)

/-- Match the trailing-comma pattern `,(\s*[}\]])` at the current position:
a comma, optional whitespace, then a closing brace or bracket.  Returns the
whitespace, the closing character, and the rest after it. -/
def tcMatch (s : Str) : Option (Str × Char × Str) :=
  match s with
  | [] => none
  | c :: cs =>
    if c = ',' then
      match cs.dropWhile isWsChar with
      | c2 :: cs2 =>
        if c2 = '}' || c2 = ']' then some (cs.takeWhile isWsChar, c2, cs2) else none
      | [] => none
    else none

/-- The scan of the global replace for trailing commas: on a match the comma
is dropped (the captured whitespace and closer are kept), one issue at the
match offset and one fix are recorded, and scanning resumes after the match;
otherwise the character is copied.  Fuel is the remaining length. -/
def tcGo (pin : Str) : Nat → Nat → Str → RepairStepResult
  | _, _, [] => ⟨false, [], [], []⟩
  | 0, _, s => ⟨false, s, [], []⟩
  | fuel+1, pos, c :: cs =>
    match tcMatch (c :: cs) with
    | some (ws, closer, rest) =>
      let r := tcGo pin fuel (pos + 1 + ws.length + 1) rest
      ⟨true, ws ++ closer :: r.text,
        ⟨(lineCol pin pos).1, (lineCol pin pos).2, "trailing_comma",
          "Trailing comma before closing bracket"⟩ :: r.issues,
        "Removed trailing comma" :: r.fixes⟩
    | none =>
      let r := tcGo pin fuel (pos + 1) cs
      ⟨r.fixed, c :: r.text, r.issues, r.fixes⟩

/-- `repairTrailingCommas` from jsonRepair.ts. -/
def repairTrailingCommas (input : Str) : RepairStepResult :=
  tcGo input input.length 0 input

/-- The `missing_comma` issue at a given offset of the pass input. -/
def mcIssue (pin : Str) (off : Nat) : RepairIssue :=
  ⟨(lineCol pin off).1, (lineCol pin off).2, "missing_comma",
    "Missing comma between values"⟩

/-- Match pattern 1 of `repairMissingCommas`,
`("[^"]*"|\d+|true|false|null)(\s+)(")`: a value, at least one whitespace
character, then a quote.  Returns the value, the whitespace, and the rest
after the quote. -/
def p1Match (s : Str) : Option (Str × Str × Str) :=
  match s with
  | [] => none
  | c :: cs =>
    let value? : Option (Str × Str) :=
      if c = dq then
        match cs.dropWhile (fun x => !(x = dq)) with
        | c2 :: r => if c2 = dq then some (dq :: (cs.takeWhile (fun x => !(x = dq)) ++ [dq]), r) else none
        | [] => none
      else if c.isDigit then some (c :: cs.takeWhile Char.isDigit, cs.dropWhile Char.isDigit)
      else
        match c :: cs with
        | 't' :: 'r' :: 'u' :: 'e' :: r => some (['t','r','u','e'], r)
        | 'f' :: 'a' :: 'l' :: 's' :: 'e' :: r => some (['f','a','l','s','e'], r)
        | 'n' :: 'u' :: 'l' :: 'l' :: r => some (['n','u','l','l'], r)
        | _ => none
    match value? with
    | none => none
    | some (v, rest1) =>
      let ws := rest1.takeWhile isWsChar
      if ws.isEmpty then none
      else
        match rest1.dropWhile isWsChar with
        | c2 :: rest2 => if c2 = dq then some (v, ws, rest2) else none
        | [] => none

/-- Match pattern 2, `([}\]])(\s+)(")`. -/
def p2Match (s : Str) : Option (Char × Str × Str) :=
  match s with
  | [] => none
  | c :: cs =>
    if c = '}' || c = ']' then
      let ws := cs.takeWhile isWsChar
      if ws.isEmpty then none
      else
        match cs.dropWhile isWsChar with
        | c2 :: rest2 => if c2 = dq then some (c, ws, rest2) else none
        | [] => none
    else none

/-- Match pattern 3, `([}\]])(\s+)([{[])`. -/
def p3Match (s : Str) : Option (Char × Str × Char × Str) :=
  match s with
  | [] => none
  | c :: cs =>
    if c = '}' || c = ']' then
      let ws := cs.takeWhile isWsChar
      if ws.isEmpty then none
      else
        match cs.dropWhile isWsChar with
        | c2 :: rest2 => if c2 = '{' || c2 = '[' then some (c, ws, c2, rest2) else none
        | [] => none
    else none

/-- Global replace for pattern 1: insert a comma after the matched value;
the issue offset is `offset + value.length` into the pass input `pin`
(jsonRepair.ts, line 130). -/
def goP1 (pin : Str) : Nat → Nat → Str → RepairStepResult
  | _, _, [] => ⟨false, [], [], []⟩
  | 0, _, s => ⟨false, s, [], []⟩
  | fuel+1, pos, c :: cs =>
    match p1Match (c :: cs) with
    | some (v, ws, rest) =>
      let r := goP1 pin fuel (pos + v.length + ws.length + 1) rest
      ⟨true, v ++ ',' :: (ws ++ dq :: r.text), mcIssue pin (pos + v.length) :: r.issues,
        "Added missing comma" :: r.fixes⟩
    | none =>
      let r := goP1 pin fuel (pos + 1) cs
      ⟨r.fixed, c :: r.text, r.issues, r.fixes⟩

/-- Global replace for pattern 2. -/
def goP2 (pin : Str) : Nat → Nat → Str → RepairStepResult
  | _, _, [] => ⟨false, [], [], []⟩
  | 0, _, s => ⟨false, s, [], []⟩
  | fuel+1, pos, c :: cs =>
    match p2Match (c :: cs) with
    | some (v, ws, rest) =>
      let r := goP2 pin fuel (pos + 1 + ws.length + 1) rest
      ⟨true, v :: ',' :: (ws ++ dq :: r.text), mcIssue pin (pos + 1) :: r.issues,
        "Added missing comma" :: r.fixes⟩
    | none =>
      let r := goP2 pin fuel (pos + 1) cs
      ⟨r.fixed, c :: r.text, r.issues, r.fixes⟩

/-- Global replace for pattern 3. -/
def goP3 (pin : Str) : Nat → Nat → Str → RepairStepResult
  | _, _, [] => ⟨false, [], [], []⟩
  | 0, _, s => ⟨false, s, [], []⟩
  | fuel+1, pos, c :: cs =>
    match p3Match (c :: cs) with
    | some (v, ws, nxt, rest) =>
      let r := goP3 pin fuel (pos + 1 + ws.length + 1) rest
      ⟨true, v :: ',' :: (ws ++ nxt :: r.text), mcIssue pin (pos + 1) :: r.issues,
        "Added missing comma" :: r.fixes⟩
    | none =>
      let r := goP3 pin fuel (pos + 1) cs
      ⟨r.fixed, c :: r.text, r.issues, r.fixes⟩

/-- One whole-text replace for each pattern. -/
def replaceP1 (pin t : Str) : RepairStepResult := goP1 pin t.length 0 t

def replaceP2 (pin t : Str) : RepairStepResult := goP2 pin t.length 0 t

def replaceP3 (pin t : Str) : RepairStepResult := goP3 pin t.length 0 t

/-- One iteration of the `repairMissingCommas` while loop: the three pattern
replaces run in order, each on the previous one's output. -/
def mcIter (pin t : Str) : RepairStepResult :=
  let r1 := replaceP1 pin t
  let r2 := replaceP2 pin r1.text
  let r3 := replaceP3 pin r2.text
  ⟨r1.fixed || r2.fixed || r3.fixed, r3.text,
    r1.issues ++ (r2.issues ++ r3.issues), r1.fixes ++ (r2.fixes ++ r3.fixes)⟩

/-- The text component of one missing-comma iteration. -/
def mcIterText (pin t : Str) : Str := (mcIter pin t).text

/-- The bounded fixed-point loop of `repairMissingCommas`
(`while (text !== previousText && iterations < maxIterations)`),
with `maxIterations = 5`; the fuel counts the remaining allowed iterations. -/
def mcLoop (pin : Str) :
    Nat → Str → Str → List RepairIssue → List String → Bool → RepairStepResult
  | 0, _, text, iss, fxs, fx => ⟨fx, text, iss, fxs⟩
  | fuel+1, prev, text, iss, fxs, fx =>
    if text = prev then ⟨fx, text, iss, fxs⟩
    else
      let r := mcIter pin text
      mcLoop pin fuel text r.text (iss ++ r.issues) (fxs ++ r.fixes) (fx || r.fixed)

/-- `repairMissingCommas` from jsonRepair.ts: `previousText` starts as the
empty string, so an empty input runs zero iterations. -/
def repairMissingCommas (input : Str) : RepairStepResult :=
  mcLoop input 5 [] input [] [] false

/-- Escape-aware unescaped-quote count of a line (jsonRepair.ts, lines
183-195): a backslash not itself escaped escapes the next character. -/
def jsonQuoteCountGo : Bool → Str → Nat
  | _, [] => 0
  | esc, c :: cs =>
    if c = bs && !esc then jsonQuoteCountGo true cs
    else (if c = dq && !esc then 1 else 0) + jsonQuoteCountGo false cs

/-- Unescaped-quote count of a line. -/
def jsonQuoteCount (l : Str) : Nat := jsonQuoteCountGo false l

/-- `line.substring(line.lastIndexOf('"') + 1)`: the suffix after the last
quote; the whole line when there is no quote. -/
def afterLastQuote (l : Str) : Str :=
  (l.reverse.takeWhile (fun c => !(c = dq))).reverse

/-- `afterQuote.match(/^[,}\]]/)`: does the tail start with a comma or a
closing brace or bracket? -/
def startsWithContinuation : Str → Bool
  | [] => false
  | c :: _ => c = ',' || c = '}' || c = ']'

/-- The exact condition under which the JSON unclosed-quote pass appends a
quote to a line: odd unescaped-quote count, and a trimmed tail after the last
quote that is non-empty and does not start with `,`, `}` or `]`
(jsonRepair.ts, lines 198-204). -/
def jsonQuoteAppends (l : Str) : Bool :=
  decide (jsonQuoteCount l % 2 = 1)
    && !(trimStr (afterLastQuote l)).isEmpty
    && !startsWithContinuation (trimStr (afterLastQuote l))

/-- Per-line loop of the JSON `repairUnclosedQuotes` (jsonRepair.ts 181-218);
the issue column is the line length after the append. -/
def jsonQuoteGo (i : Nat) : List Str → LinesAcc
  | [] => ⟨[], [], [], false⟩
  | l :: ls =>
    let r := jsonQuoteGo (i + 1) ls
    if jsonQuoteAppends l then
      ⟨(l ++ [dq]) :: r.lines,
        ⟨i + 1, (l ++ [dq]).length, "unclosed_quote", "Unclosed string quote"⟩
          :: r.issues,
        "Added closing quote" :: r.fixes, true⟩
    else ⟨l :: r.lines, r.issues, r.fixes, r.fixed⟩

/-- The JSON `repairUnclosedQuotes` pass. -/
def jsonRepairUnclosedQuotes (input : Str) : RepairStepResult :=
  let r := jsonQuoteGo 0 (splitNl input)
  ⟨r.fixed, joinNl r.lines, r.issues, r.fixes⟩

/-- State of the bracket scan of `repairMismatchedBrackets`
(jsonRepair.ts 228-273); `inString` and `escaped` persist across lines, the
stack holds `(bracket, line, column)`. -/
structure BrState where
  inString : Bool
  escaped : Bool
  stack : List (Char × Nat × Nat)
  issues : List RepairIssue
deriving DecidableEq, Repr

/-- Description of a mismatched closing bracket. -/
def brMismatchDesc (ch : Char) : String :=
  "Unexpected closing bracket '" ++ String.singleton ch ++ "'"

/-- Description of an unclosed opening bracket. -/
def brUnclosedDesc (ch : Char) : String :=
  "Unclosed '" ++ String.singleton ch ++ "' bracket"

/-- Fix message for an appended closing bracket. -/
def brClosedFix (ch : Char) : String :=
  "Added closing '" ++ String.singleton ch ++ "' bracket"

/-- Process one character of the bracket scan. -/
def brChar (lineNo colNo : Nat) (st : BrState) (ch : Char) : BrState :=
  if ch = bs && !st.escaped then { st with escaped := true }
  else
    let st1 := if ch = dq && !st.escaped then { st with inString := !st.inString } else st
    let st2 :=
      if !st1.inString && !st1.escaped then
        if ch = '{' || ch = '[' then { st1 with stack := (ch, lineNo, colNo) :: st1.stack }
        else if ch = '}' || ch = ']' then
          let expected := if ch = '}' then '{' else '['
          match st1.stack with
          | top :: rest =>
            if top.1 = expected then { st1 with stack := rest }
            else { st1 with issues := st1.issues
                ++ [⟨lineNo, colNo, "mismatched_bracket", brMismatchDesc ch⟩] }
          | [] => { st1 with issues := st1.issues
              ++ [⟨lineNo, colNo, "mismatched_bracket", brMismatchDesc ch⟩] }
        else st1
      else st1
    { st2 with escaped := false }

/-- Scan the characters of one line, 1-based columns. -/
def brChars (lineNo : Nat) : Nat → BrState → Str → BrState
  | _, st, [] => st
  | col, st, ch :: cs => brChars lineNo (col + 1) (brChar lineNo col st ch) cs

/-- Scan all lines, 1-based line numbers. -/
def brScan : Nat → BrState → List Str → BrState
  | _, st, [] => st
  | lineNo, st, l :: ls => brScan (lineNo + 1) (brChars lineNo 1 st l) ls

/-- `repairMismatchedBrackets` from jsonRepair.ts: unclosed openers are
closed in reverse (most recent first) order at end of input; a mismatched
closer is only reported, never corrected. -/
def repairMismatchedBrackets (input : Str) : RepairStepResult :=
  let st := brScan 1 ⟨false, false, [], []⟩ (splitNl input)
  if st.stack.isEmpty then ⟨false, input, st.issues, []⟩
  else
    let closers := st.stack.map (fun e => if e.1 = '{' then '}' else ']')
    ⟨true, input ++ closers,
      st.issues ++ st.stack.map (fun e =>
        ⟨e.2.1, e.2.2, "unclosed_bracket", brUnclosedDesc e.1⟩),
      st.stack.map (fun e => brClosedFix (if e.1 = '{' then '}' else ']'))⟩

/-- `repairJson` from jsonRepair.ts: the fast path returns already-valid
input unchanged; otherwise the four passes run in order, each pass's findings
merged only when it fixed something, and success is the re-validation of the
final text by the authoritative parser. -/
def repairJson (input : Str) : RepairResult :=
  if jsonParseOk input then ⟨true, some input, [], []⟩
  else
    let r1 := repairTrailingCommas input
    let t1 := if r1.fixed then r1.text else input
    let i1 := if r1.fixed then r1.issues else []
    let f1 := if r1.fixed then r1.fixes else []
    let r2 := repairMissingCommas t1
    let t2 := if r2.fixed then r2.text else t1
    let i2 := i1 ++ (if r2.fixed then r2.issues else [])
    let f2 := f1 ++ (if r2.fixed then r2.fixes else [])
    let r3 := jsonRepairUnclosedQuotes t2
    let t3 := if r3.fixed then r3.text else t2
    let i3 := i2 ++ (if r3.fixed then r3.issues else [])
    let f3 := f2 ++ (if r3.fixed then r3.fixes else [])
    let r4 := repairMismatchedBrackets t3
    let t4 := if r4.fixed then r4.text else t3
    let i4 := i3 ++ (if r4.fixed then r4.issues else [])
    let f4 := f3 ++ (if r4.fixed then r4.fixes else [])
    ⟨jsonParseOk t4, some t4, i4, f4⟩

theorem mcLoop_bounded (pin : Str) : ∀ (fuel : Nat) (prev text : Str)
    (iss : List RepairIssue) (fxs : List String) (fx : Bool),
    (text = prev → mcIterText pin text = text) →
    ∃ n, n ≤ fuel ∧
      (mcLoop pin fuel prev text iss fxs fx).text = (mcIterText pin)^[n] text
      ∧ (n < fuel →
          mcIterText pin ((mcIterText pin)^[n] text) = (mcIterText pin)^[n] text)
      ∧ (∀ k, 0 < k → k < n →
          (mcIterText pin)^[k] text ≠ (mcIterText pin)^[k - 1] text)
      ∧ (0 < n → text ≠ prev) := by
  intro fuel
  induction fuel with
  | zero =>
    intro prev text iss fxs fx hfp
    refine ⟨0, le_refl 0, by simp [mcLoop], ?_, ?_, ?_⟩
    · intro h; exact absurd h (Nat.not_lt_zero 0)
    · intro k _ hk2; exact absurd hk2 (Nat.not_lt_zero k)
    · intro h; exact absurd h (lt_irrefl 0)
  | succ fuel ih =>
    intro prev text iss fxs fx hfp
    by_cases heq : text = prev
    · refine ⟨0, Nat.zero_le _, by simp [mcLoop, heq], ?_, ?_, ?_⟩
      · intro _; simpa using hfp heq
      · intro k _ hk2; exact absurd hk2 (Nat.not_lt_zero k)
      · intro h; exact absurd h (lt_irrefl 0)
    · have hfp' : (mcIter pin text).text = text →
          mcIterText pin (mcIter pin text).text = (mcIter pin text).text := by
        intro h
        show mcIterText pin (mcIter pin text).text = (mcIter pin text).text
        have h2 : (mcIter pin text).text = mcIterText pin text := rfl
        rw [h2] at h ⊢
        rw [h]
        exact h
      obtain ⟨n', hle, htext, hfix, hmin, hpos⟩ :=
        ih text (mcIter pin text).text (iss ++ (mcIter pin text).issues)
          (fxs ++ (mcIter pin text).fixes) (fx || (mcIter pin text).fixed) hfp'
      refine ⟨n' + 1, by omega, ?_, ?_, ?_, ?_⟩
      · simp only [mcLoop, if_neg heq]
        rw [htext]
        have h2 : (mcIter pin text).text = mcIterText pin text := rfl
        rw [h2, ← Function.iterate_succ_apply]
      · intro hlt
        have h3 := hfix (by omega)
        have h2 : (mcIter pin text).text = mcIterText pin text := rfl
        rw [h2, ← Function.iterate_succ_apply] at h3
        exact h3
      · intro k hk1 hk2
        match k, hk1 with
        | 1, _ =>
          have hne := hpos (by omega)
          have h2 : (mcIter pin text).text = mcIterText pin text := rfl
          rw [h2] at hne
          simpa using hne
        | (k' + 2), _ =>
          have h5 := hmin (k' + 1) (by omega) (by omega)
          have h2 : (mcIter pin text).text = mcIterText pin text := rfl
          rw [h2] at h5
          rw [← Function.iterate_succ_apply] at h5
          simp only [Nat.add_sub_cancel] at h5 ⊢
          rw [← Function.iterate_succ_apply] at h5
          exact h5
      · intro _; exact heq

/-- C8: the missing-comma rewrite loop is bounded.  For every input there is
an iteration count `n ≤ 5` such that the pass output is the `n`-fold
application of one rewrite iteration; when the loop stopped before the cap
the final text is a fixed point of the iteration, and no earlier iteration
already reached a fixed point (the loop stops as soon as an iteration leaves
the text unchanged).  `repairJson` is a total function of this development
built from these bounded passes, and in particular always returns a repaired
text. -/
theorem claim_C8_missing_comma_loop_bounded (input : Str) :
    (∃ n, n ≤ 5 ∧
      (repairMissingCommas input).text = (mcIterText input)^[n] input
      ∧ (n < 5 →
          mcIterText input ((mcIterText input)^[n] input) = (mcIterText input)^[n] input)
      ∧ (∀ k, 0 < k → k < n →
          (mcIterText input)^[k] input ≠ (mcIterText input)^[k - 1] input))
    ∧ ∃ t, (repairJson input).repairedText = some t := by
  constructor
  · have h0 : input = ([] : Str) → mcIterText input input = input := by
      intro h
      subst h
      rfl
    obtain ⟨n, h1, h2, h3, h4, _⟩ := mcLoop_bounded input 5 [] input [] [] false h0
    exact ⟨n, h1, h2, h3, h4⟩
  · rw [repairJson]
    by_cases h : jsonParseOk input
    · simp [h]
    · simp [h]

theorem jsonQuoteGo_lines (i : Nat) (ls : List Str) :
    (jsonQuoteGo i ls).lines
      = ls.map (fun l => if jsonQuoteAppends l then l ++ [dq] else l) := by
  induction ls generalizing i with
  | nil => rfl
  | cons l ls ih =>
    by_cases h : jsonQuoteAppends l
    · simp [jsonQuoteGo, h, ih]
    · simp [jsonQuoteGo, h, ih]

theorem jsonQuoteGo_issues (i : Nat) (ls : List Str) :
    (jsonQuoteGo i ls).issues
      = (ls.enumFrom i).filterMap
          (fun p => if jsonQuoteAppends p.2 then
            some ⟨p.1 + 1, (p.2 ++ [dq]).length, "unclosed_quote", "Unclosed string quote"⟩
            else none) := by
  induction ls generalizing i with
  | nil => rfl
  | cons l ls ih =>
    by_cases h : jsonQuoteAppends l
    · simp [jsonQuoteGo, h, ih, List.enumFrom, List.filterMap_cons]
    · simp [jsonQuoteGo, h, ih, List.enumFrom, List.filterMap_cons]

theorem jsonQuoteGo_fixes (i : Nat) (ls : List Str) :
    (jsonQuoteGo i ls).fixes
      = List.replicate (ls.filter jsonQuoteAppends).length "Added closing quote" := by
  induction ls generalizing i with
  | nil => rfl
  | cons l ls ih =>
    by_cases h : jsonQuoteAppends l
    · simp [jsonQuoteGo, h, ih, List.filter_cons, List.replicate_succ]
    · simp [jsonQuoteGo, h, ih, List.filter_cons]

/-- C4, corrected: in the JSON unclosed-quote pass a closing quote is
appended to a line exactly when the unescaped-quote count is odd AND the
whitespace-trimmed tail after the line's last quote is non-empty AND that
tail does not start with `,`, `}` or `]`; one `unclosed_quote` issue and one
fix are recorded per appended quote.  (The original claim omitted the
non-emptiness requirement on the tail.) -/
theorem claim_C4_unclosed_quote_condition (input : Str) :
    (jsonRepairUnclosedQuotes input).text
      = joinNl ((splitNl input).map (fun l => if jsonQuoteAppends l then l ++ [dq] else l))
    ∧ (∀ l : Str, jsonQuoteAppends l = true ↔
        (jsonQuoteCount l % 2 = 1 ∧ trimStr (afterLastQuote l) ≠ []
          ∧ startsWithContinuation (trimStr (afterLastQuote l)) = false))
    ∧ (jsonRepairUnclosedQuotes input).issues
        = ((splitNl input).enumFrom 0).filterMap
            (fun p => if jsonQuoteAppends p.2 then
              some ⟨p.1 + 1, (p.2 ++ [dq]).length, "unclosed_quote", "Unclosed string quote"⟩
              else none)
    ∧ (jsonRepairUnclosedQuotes input).fixes
        = List.replicate ((splitNl input).filter jsonQuoteAppends).length
            "Added closing quote" := by
  refine ⟨?_, ?_, ?_, ?_⟩
  · simp [jsonRepairUnclosedQuotes, jsonQuoteGo_lines]
  · intro l
    simp only [jsonQuoteAppends, Bool.and_eq_true, decide_eq_true_eq,
      Bool.not_eq_true', Bool.eq_false_iff]
    constructor
    · rintro ⟨⟨h1, h2⟩, h3⟩
      refine ⟨h1, ?_, h3⟩
      intro hnil
      exact h2 (List.isEmpty_iff.mpr hnil)
    · rintro ⟨h1, h2, h3⟩
      refine ⟨⟨h1, ?_⟩, h3⟩
      intro hemp
      exact h2 (List.isEmpty_iff.mp hemp)
  · simp [jsonRepairUnclosedQuotes, jsonQuoteGo_issues]
  · simp [jsonRepairUnclosedQuotes, jsonQuoteGo_fixes]

/-- C4 is false as stated: on the single-character line `"` the quote count
is odd and the tail after the last quote (the empty string) does not start
with `,`, `}` or `]`, so the claim predicts an appended quote - but the code
additionally requires the trimmed tail to be non-empty, appends nothing and
records no fix. -/
theorem claim_C4_counterexample :
    jsonQuoteCount [dq] % 2 = 1
    ∧ startsWithContinuation (trimStr (afterLastQuote [dq])) = false
    ∧ (jsonRepairUnclosedQuotes [dq]).text = [dq]
    ∧ (jsonRepairUnclosedQuotes [dq]).fixes = [] := by
  refine ⟨by decide, by decide, by decide, by decide⟩

/-! ### XML repair (src/services/repair/xmlRepair.ts) -/

/-- The incremental line-position bookkeeping of `repairUnclosedTags`
(xmlRepair.ts, lines 56-59): advance `lineNum`/`lineStart` while the match
position lies beyond the current line.  Fuel bounds the walk by the number of
lines. -/
def xmlAdvance (lines : List Str) : Nat → Nat → Nat → Nat → Nat × Nat
  | 0, ln, lst, _ => (ln, lst)
  | fuel + 1, ln, lst, pos =>
    if lst + (lines.getD (ln - 1) []).length < pos ∧ ln < lines.length then
      xmlAdvance lines fuel (ln + 1) (lst + (lines.getD (ln - 1) []).length + 1) pos
    else (ln, lst)

/-- Tail of a tag match, after the `<` and the optional `/`: a letter, then
alphanumerics form the tag name, then `[^>]*` up to the closing `>`.
Self-closing means the full tag ends in `/>`, i.e. the character right before
`>` is `/`. -/
def xmlTagTail (isClosing : Bool) (r1 : Str) : Option (Bool × Bool × Str × Nat × Str) :=
  match r1 with
  | [] => none
  | c :: r2 =>
    if c.isAlpha then
      let name := c :: r2.takeWhile Char.isAlphanum
      let r3 := r2.dropWhile Char.isAlphanum
      let attrs := r3.takeWhile (fun x => !(x = '>'))
      match r3.dropWhile (fun x => !(x = '>')) with
      | _ :: r5 =>
        some (isClosing, decide (attrs.getLastD ' ' = '/'), name,
          1 + (if isClosing then 1 else 0) + name.length + attrs.length + 1, r5)
      | [] => none
    else none

/-- Match the tag pattern `<\/?([a-zA-Z][a-zA-Z0-9]*)[^>]*>` at the current
position: returns `(isClosing, isSelfClosing, tagName, tagLength, rest)`. -/
def xmlTagMatchAt (s : Str) : Option (Bool × Bool × Str × Nat × Str) :=
  match s with
  | '<' :: '/' :: r1 => xmlTagTail true r1
  | '<' :: r1 => xmlTagTail false r1
  | _ => none

/-- Description of a mismatched closing tag. -/
def xmlMismatchDesc (name : Str) : String :=
  "Unexpected closing tag '</" ++ String.mk name ++ ">'"

/-- Description of an unclosed tag. -/
def xmlUnclosedDesc (name : Str) : String :=
  "Unclosed tag '<" ++ String.mk name ++ ">'"

/-- Fix message for an appended closing tag. -/
def xmlClosedFix (name : Str) : String :=
  "Added closing tag '</" ++ String.mk name ++ ">'"

/-- The `exec` loop of `repairUnclosedTags`: find the next tag, update the
line bookkeeping, skip self-closing tags, pop matching closers (reporting a
`mismatched_tag` otherwise), push openers.  Fuel is the remaining input
length. -/
def xmlScanGo (lines : List Str) :
    Nat → Str → Nat → Nat → Nat → List (Str × Nat × Nat) → List RepairIssue →
    List (Str × Nat × Nat) × List RepairIssue
  | _, [], _, _, _, stack, issues => (stack, issues)
  | 0, _ :: _, _, _, _, stack, issues => (stack, issues)
  | fuel + 1, ch :: cs, pos, lineNum, lineStart, stack, issues =>
    match xmlTagMatchAt (ch :: cs) with
    | some (isClosing, selfClosing, name, fullLen, rest) =>
      let ln := (xmlAdvance lines lines.length lineNum lineStart pos).1
      let lst := (xmlAdvance lines lines.length lineNum lineStart pos).2
      let col := pos - lst + 1
      if selfClosing then
        xmlScanGo lines fuel rest (pos + fullLen) ln lst stack issues
      else if isClosing then
        match stack with
        | top :: restStack =>
          if top.1 = name then
            xmlScanGo lines fuel rest (pos + fullLen) ln lst restStack issues
          else
            xmlScanGo lines fuel rest (pos + fullLen) ln lst stack
              (issues ++ [⟨ln, col, "mismatched_tag", xmlMismatchDesc name⟩])
        | [] =>
          xmlScanGo lines fuel rest (pos + fullLen) ln lst []
            (issues ++ [⟨ln, col, "mismatched_tag", xmlMismatchDesc name⟩])
      else
        xmlScanGo lines fuel rest (pos + fullLen) ln lst ((name, ln, col) :: stack) issues
    | none => xmlScanGo lines fuel cs (pos + 1) lineNum lineStart stack issues

/-- `repairUnclosedTags` from xmlRepair.ts: scan all tags; openers left on
the stack at end of input are closed in reverse (most recently opened first)
order.  The stack is modelled with its top at the head, which is exactly the
source's `stack.reverse()` iteration order. -/
def repairUnclosedTags (input : Str) : RepairStepResult :=
  let st := xmlScanGo (splitNl input) input.length input 0 1 0 [] []
  if st.1.isEmpty then ⟨false, input, st.2, []⟩
  else
    ⟨true,
      input ++ (st.1.map (fun e => '<' :: '/' :: (e.1 ++ ['>']))).flatten,
      st.2 ++ st.1.map (fun e => ⟨e.2.1, e.2.2, "unclosed_tag", xmlUnclosedDesc e.1⟩),
      st.1.map (fun e => xmlClosedFix e.1)⟩

/-- `repairXml` from xmlRepair.ts: one pass, findings merged only when it
fixed something, success iff some fix was applied. -/
def repairXml (input : Str) : RepairResult :=
  let tr := repairUnclosedTags input
  let repairedText := if tr.fixed then tr.text else input
  let issuesFound := if tr.fixed then tr.issues else []
  let appliedFixes := if tr.fixed then tr.fixes else []
  ⟨decide (0 < appliedFixes.length), some repairedText, issuesFound, appliedFixes⟩

theorem takeWhile_append_cons {α : Type} (p : α → Bool) (l1 : List α) (c : α) (l2 : List α)
    (h1 : ∀ a ∈ l1, p a = true) (h2 : p c = false) :
    (l1 ++ c :: l2).takeWhile p = l1 := by
  induction l1 with
  | nil => simp [List.takeWhile_cons, h2]
  | cons a t ih =>
    have ha := h1 a (List.mem_cons_self a t)
    simp only [List.cons_append, List.takeWhile_cons, ha, if_pos]
    rw [ih (fun x hx => h1 x (List.mem_cons_of_mem a hx))]

theorem dropWhile_append_cons {α : Type} (p : α → Bool) (l1 : List α) (c : α) (l2 : List α)
    (h1 : ∀ a ∈ l1, p a = true) (h2 : p c = false) :
    (l1 ++ c :: l2).dropWhile p = c :: l2 := by
  induction l1 with
  | nil => simp [List.dropWhile_cons, h2]
  | cons a t ih =>
    have ha := h1 a (List.mem_cons_self a t)
    simp only [List.cons_append, List.dropWhile_cons, ha, if_pos]
    exact ih (fun x hx => h1 x (List.mem_cons_of_mem a hx))

theorem xmlTagMatchAt_not_lt {ch : Char} (t : Str) (h : ¬ ch = '<') :
    xmlTagMatchAt (ch :: t) = none := by
  unfold xmlTagMatchAt
  split
  · rename_i heq
    injection heq with h1 _
    exact absurd h1 h
  · rename_i heq
    injection heq with h1 _
    exact absurd h1 h
  · rfl

theorem isAlpha_ne_slash {c : Char} (hc : c.isAlpha = true) : ¬ c = '/' := by
  intro h
  rw [h] at hc
  exact absurd hc (by decide)

theorem xmlTagMatchAt_lt_cons {c : Char} (t : Str) (h : ¬ c = '/') :
    xmlTagMatchAt ('<' :: c :: t) = xmlTagTail false (c :: t) := by
  unfold xmlTagMatchAt
  split
  · rename_i heq
    injection heq with h1 h2
    injection h2 with h3 _
    exact absurd h3 h
  · rename_i heq
    injection heq with h1 h2
    rw [h2]
  · rename_i hno1 hno2
    exact ((hno2 (c :: t)) rfl).elim

theorem xmlTagMatchAt_slash (r1 : Str) :
    xmlTagMatchAt ('<' :: '/' :: r1) = xmlTagTail true r1 := rfl

theorem xmlTagTail_eval (isClosing : Bool) (c : Char) (nt rest : Str)
    (hc : c.isAlpha = true) (hnt : ∀ a ∈ nt, a.isAlphanum = true) :
    xmlTagTail isClosing (c :: (nt ++ '>' :: rest))
      = some (isClosing, false, c :: nt,
          1 + (if isClosing then 1 else 0) + (nt.length + 1) + 1, rest) := by
  have hgt : Char.isAlphanum '>' = false := by decide
  have htake := takeWhile_append_cons Char.isAlphanum nt '>' rest hnt hgt
  have hdrop := dropWhile_append_cons Char.isAlphanum nt '>' rest hnt hgt
  unfold xmlTagTail
  simp only [hc, if_pos, htake, hdrop, List.takeWhile_cons, List.dropWhile_cons]
  norm_num
  decide

theorem xmlTagMatchAt_open (c : Char) (nt rest : Str) (hc : c.isAlpha = true)
    (hnt : ∀ a ∈ nt, a.isAlphanum = true) :
    xmlTagMatchAt ('<' :: ((c :: nt) ++ '>' :: rest))
      = some (false, false, c :: nt, nt.length + 3, rest) := by
  rw [List.cons_append, xmlTagMatchAt_lt_cons _ (isAlpha_ne_slash hc),
    xmlTagTail_eval false c nt rest hc hnt]
  norm_num
  omega

theorem xmlTagMatchAt_close (c : Char) (nt rest : Str) (hc : c.isAlpha = true)
    (hnt : ∀ a ∈ nt, a.isAlphanum = true) :
    xmlTagMatchAt ('<' :: '/' :: ((c :: nt) ++ '>' :: rest))
      = some (true, false, c :: nt, nt.length + 4, rest) := by
  rw [List.cons_append, xmlTagMatchAt_slash, xmlTagTail_eval true c nt rest hc hnt]
  norm_num
  omega

theorem xmlScanGo_skip (lines : List Str) (content : Str)
    (h : ∀ ch ∈ content, ¬ ch = '<') :
    ∀ (fuel pos ln lst : Nat) (stack : List (Str × Nat × Nat))
      (issues : List RepairIssue) (rest : Str),
    xmlScanGo lines (fuel + content.length) (content ++ rest) pos ln lst stack issues
      = xmlScanGo lines fuel rest (pos + content.length) ln lst stack issues := by
  induction content with
  | nil => intro fuel pos ln lst stack issues rest; simp
  | cons ch ct ih =>
    intro fuel pos ln lst stack issues rest
    have hch : ¬ ch = '<' := h ch (List.mem_cons_self ch ct)
    have hct : ∀ a ∈ ct, ¬ a = '<' := fun a ha => h a (List.mem_cons_of_mem ch ha)
    have harith : fuel + (ch :: ct).length = (fuel + ct.length) + 1 := by
      simp [List.length_cons]
      omega
    rw [harith, List.cons_append]
    rw [show xmlScanGo lines ((fuel + ct.length) + 1) (ch :: (ct ++ rest)) pos ln lst stack issues
        = xmlScanGo lines (fuel + ct.length) (ct ++ rest) (pos + 1) ln lst stack issues from by
      simp only [xmlScanGo, xmlTagMatchAt_not_lt _ hch]]
    rw [ih hct fuel (pos + 1) ln lst stack issues rest]
    have harith2 : pos + 1 + ct.length = pos + (ch :: ct).length := by
      simp [List.length_cons]
      omega
    rw [harith2]

theorem xmlScanGo_valid (c : Char) (nt content : Str)
    (hc : c.isAlpha = true) (hnt : ∀ a ∈ nt, a.isAlphanum = true)
    (hcontent : ∀ ch ∈ content, ¬ ch = '<') (lines : List Str) :
    ∀ (F pos ln lst : Nat),
    xmlScanGo lines ((F + content.length) + 2)
        ('<' :: ((c :: nt) ++ '>' :: (content ++ '<' :: '/' :: ((c :: nt) ++ ['>']))))
        pos ln lst [] []
      = ([], []) := by
  intro F pos ln lst
  rw [show (F + content.length) + 2 = ((F + content.length) + 1) + 1 from by omega]
  rw [show xmlScanGo lines (((F + content.length) + 1) + 1)
        ('<' :: ((c :: nt) ++ '>' :: (content ++ '<' :: '/' :: ((c :: nt) ++ ['>']))))
        pos ln lst [] []
      = xmlScanGo lines ((F + content.length) + 1)
          (content ++ '<' :: '/' :: ((c :: nt) ++ ['>']))
          (pos + (nt.length + 3))
          (xmlAdvance lines lines.length ln lst pos).1
          (xmlAdvance lines lines.length ln lst pos).2
          [(c :: nt, (xmlAdvance lines lines.length ln lst pos).1,
            pos - (xmlAdvance lines lines.length ln lst pos).2 + 1)] [] from by
    simp only [xmlScanGo, xmlTagMatchAt_open c nt _ hc hnt]
    norm_num]
  rw [show (F + content.length) + 1 = (F + 1) + content.length from by omega]
  rw [xmlScanGo_skip lines content hcontent (F + 1) _ _ _ _ _ _]
  rw [show ('<' :: '/' :: ((c :: nt) ++ ['>'])) = '<' :: '/' :: ((c :: nt) ++ '>' :: []) from rfl]
  simp only [xmlScanGo, xmlTagMatchAt_close c nt _ hc hnt]
  norm_num

/-- Modelled from the spec: a conservative under-approximation of validity
under the authoritative XML parser (the external fast-xml-parser library, not
part of this repository).  It accepts documents of the simple shape
`<name>content</name>` with an alphanumeric tag name starting with a letter
and content free of angle brackets - indisputably well-formed XML. -/
def xmlValidModel (s : Str) : Bool :=
  match s with
  | '<' :: c :: r2 =>
    if c.isAlpha then
      match r2.dropWhile Char.isAlphanum with
      | '>' :: body =>
        let name := c :: r2.takeWhile Char.isAlphanum
        let closing := '<' :: '/' :: (name ++ ['>'])
        decide (body = body.take (body.length - closing.length) ++ closing)
          && (body.take (body.length - closing.length)).all
              (fun x => !(x = '<') && !(x = '>'))
      | _ => false
    else false
  | _ => false

theorem xmlValidModel_inv {s : Str} (h : xmlValidModel s = true) :
    ∃ (c : Char) (nt content : Str),
      s = '<' :: ((c :: nt) ++ '>' :: (content ++ '<' :: '/' :: ((c :: nt) ++ ['>'])))
      ∧ c.isAlpha = true ∧ (∀ a ∈ nt, a.isAlphanum = true)
      ∧ (∀ ch ∈ content, ¬ ch = '<') := by
  unfold xmlValidModel at h
  split at h
  case h_2 => exact absurd h (by simp)
  rename_i c r2
  split at h
  case isFalse => exact absurd h (by simp)
  rename_i hc
  split at h
  case h_2 => exact absurd h (by simp)
  rename_i body hdrop
  simp only [Bool.and_eq_true, decide_eq_true_eq, List.all_eq_true] at h
  obtain ⟨hbody, hcontent⟩ := h
  have hr2 : r2 = r2.takeWhile Char.isAlphanum ++ ('>' :: body) := by
    conv_lhs => rw [← List.takeWhile_append_dropWhile (p := Char.isAlphanum) (l := r2)]
    rw [hdrop]
  refine ⟨c, r2.takeWhile Char.isAlphanum,
    body.take (body.length
      - ('<' :: '/' :: ((c :: r2.takeWhile Char.isAlphanum) ++ ['>'])).length),
    ?_, hc, ?_, ?_⟩
  · rw [List.cons_append]
    congr 1
    congr 1
    conv_lhs => rw [hr2]
    exact congrArg (fun t => r2.takeWhile Char.isAlphanum ++ '>' :: t) hbody
  · intro a ha
    exact List.mem_takeWhile_imp ha
  · intro ch hch
    have h2 := hcontent ch hch
    simp only [Bool.and_eq_true, Bool.not_eq_true', decide_eq_false_iff_not] at h2
    exact h2.1

/-- On inputs accepted by the XML validity model, the tag scan finds the one
opener and its matching closer, leaves an empty stack, and `repairXml`
returns the input unchanged with empty findings and `success = false`. -/
theorem repairXml_valid {s : Str} (h : xmlValidModel s = true) :
    repairXml s = ⟨false, some s, [], []⟩ := by
  obtain ⟨c, nt, content, hs, hc, hnt, hcont⟩ := xmlValidModel_inv h
  subst hs
  have hlen : ('<' :: ((c :: nt) ++ '>' :: (content ++ '<' :: '/' :: ((c :: nt) ++ ['>'])))).length
      = ((2 * nt.length + 5) + content.length) + 2 := by
    simp [List.length_append, List.length_cons]
    omega
  have hscan := xmlScanGo_valid c nt content hc hnt hcont
    (splitNl ('<' :: ((c :: nt) ++ '>' :: (content ++ '<' :: '/' :: ((c :: nt) ++ ['>'])))))
    (2 * nt.length + 5) 0 1 0
  rw [repairXml, repairUnclosedTags, hlen, hscan]
  simp

/-! ### Validity models for YAML and CSV, and claim C1 -/

/-- One line of the form `key: value` with alphanumeric key and value. -/
def yamlKeyValLine (l : Str) : Bool :=
  match l.dropWhile Char.isAlphanum with
  | ':' :: ' ' :: v =>
    !(l.takeWhile Char.isAlphanum).isEmpty && !v.isEmpty && v.all Char.isAlphanum
  | _ => false

/-- Modelled from the spec: a conservative under-approximation of validity
under the authoritative YAML parser (the external js-yaml library, not part
of this repository).  It accepts non-empty documents whose every line is a
simple `key: value` mapping with alphanumeric key and value - indisputably
valid YAML. -/
def yamlValidModel (s : Str) : Bool :=
  !s.isEmpty && (splitNl s).all yamlKeyValLine

theorem yamlKeyValLine_no_tab {l : Str} (h : yamlKeyValLine l = true) : '\t' ∉ l := by
  unfold yamlKeyValLine at h
  split at h
  case h_2 => exact absurd h (by simp)
  rename_i v hdrop
  simp only [Bool.and_eq_true, Bool.not_eq_true', List.all_eq_true] at h
  intro hmem
  have hl : l = l.takeWhile Char.isAlphanum ++ (':' :: ' ' :: v) := by
    conv_lhs => rw [← List.takeWhile_append_dropWhile (p := Char.isAlphanum) (l := l)]
    rw [hdrop]
  rw [hl] at hmem
  rcases List.mem_append.mp hmem with hk | hv
  · have := List.mem_takeWhile_imp hk
    exact absurd this (by decide)
  · rcases List.mem_cons.mp hv with hc | hv2
    · exact absurd hc (by decide)
    · rcases List.mem_cons.mp hv2 with hc | hv3
      · exact absurd hc (by decide)
      · exact absurd (h.2 '\t' hv3) (by decide)

theorem repairYaml_valid {s : Str} (h : yamlValidModel s = true) :
    repairYaml s = ⟨false, some s, [], []⟩ := by
  have hlines : ∀ l ∈ splitNl s, yamlKeyValLine l = true := by
    simp only [yamlValidModel, Bool.and_eq_true, List.all_eq_true] at h
    exact h.2
  have hall : ∀ l ∈ splitNl s, yamlAffected l = false := by
    intro l hl
    apply yamlAffected_eq_false
    exact Or.inr (yamlKeyValLine_no_tab (hlines l hl))
  have hany : (splitNl s).any yamlAffected = false :=
    List.any_eq_false.mpr (fun l hl => by simp [hall l hl])
  have hmap : (splitNl s).map yamlFixLine = splitNl s :=
    list_map_id_of _ _ (fun l hl => yamlFixLine_of_not_affected (hall l hl))
  have hfil : (splitNl s).filter yamlAffected = [] :=
    List.filter_eq_nil_iff.mpr (fun l hl => by simp [hall l hl])
  have hiss : (((splitNl s).enumFrom 0).filterMap
      (fun p => if yamlAffected p.2 then some (yamlIssue p.1) else none)) = [] := by
    apply List.filterMap_eq_nil_iff.mpr
    intro p hp
    have hm : p.2 ∈ splitNl s := by
      have he := List.enumFrom_map_snd 0 (splitNl s)
      exact he ▸ List.mem_map_of_mem Prod.snd hp
    simp [hall p.2 hm]
  rw [repairYaml_eq, hany, hmap, hfil, hiss, joinNl_splitNl]
  rfl

/-- Characters allowed in the CSV validity model: alphanumerics and the
comma separator. -/
def csvFieldChar (c : Char) : Bool := c.isAlphanum || c = ','

/-- Modelled from the spec: a conservative under-approximation of validity
under the authoritative CSV parser (the external papaparse library, not part
of this repository).  It accepts documents whose lines are non-empty, consist
of alphanumerics and commas, and agree on the per-line comma count -
indisputably valid CSV. -/
def csvValidModel (s : Str) : Bool :=
  (splitNl s).all (fun l => !l.isEmpty && l.all csvFieldChar)
    && (splitNl s).all (fun l => l.count ',' = ((splitNl s).getD 0 []).count ',')

theorem csvTotalCount_aux (d : Char) (lines : List Str) (a : Nat)
    (h : ∀ l ∈ lines, d ∉ l) :
    lines.foldl (fun acc l => acc + l.count d) a = a := by
  induction lines generalizing a with
  | nil => rfl
  | cons l ls ih =>
    have h1 : l.count d = 0 := List.count_eq_zero.mpr (h l (List.mem_cons_self l ls))
    simp only [List.foldl, h1, Nat.add_zero]
    exact ih a (fun x hx => h x (List.mem_cons_of_mem l hx))

theorem csvTotalCount_eq_zero (d : Char) (lines : List Str)
    (h : ∀ l ∈ lines, d ∉ l) : csvTotalCount d lines = 0 :=
  csvTotalCount_aux d lines 0 h

theorem csvPrimary_eq_comma (lines : List Str)
    (h1 : csvTotalCount ';' lines = 0) (h2 : csvTotalCount '\t' lines = 0)
    (h3 : csvTotalCount '|' lines = 0) : csvPrimary lines = ',' := by
  unfold csvPrimary delimiters
  simp only [List.foldl, h1, h2, h3]
  split_ifs <;> simp_all

theorem csvRewriteLine_id {l : Str} (h1 : ';' ∉ l) (h2 : '\t' ∉ l) (h3 : '|' ∉ l) :
    csvRewriteLine ',' l = (l, false) := by
  unfold csvRewriteLine delimiters
  simp only [List.foldl]
  have s1 : csvRewriteStep ',' (l, false) ',' = (l, false) := by
    simp [csvRewriteStep]
  have s2 : csvRewriteStep ',' (l, false) ';' = (l, false) := by
    simp [csvRewriteStep, h1]
  have s3 : csvRewriteStep ',' (l, false) '\t' = (l, false) := by
    simp [csvRewriteStep, h2]
  have s4 : csvRewriteStep ',' (l, false) '|' = (l, false) := by
    simp [csvRewriteStep, h3]
  rw [s1, s2, s3, s4]

theorem csvDelimGo_fixed (p : Char) (i : Nat) (ls : List Str) :
    (csvDelimGo p i ls).fixed = ls.any (fun l => (csvRewriteLine p l).2) := by
  induction ls generalizing i with
  | nil => rfl
  | cons l ls ih =>
    by_cases h : (csvRewriteLine p l).2
    · simp [csvDelimGo, h]
    · simp [csvDelimGo, h, ih]

theorem repairCsv_valid {s : Str} (h : csvValidModel s = true) :
    repairCsv s = ⟨false, some s, [], []⟩ := by
  have h1 : (splitNl s).all (fun l => !l.isEmpty && l.all csvFieldChar) = true :=
    ((Bool.and_eq_true _ _).mp h).1
  have hfield : ∀ l ∈ splitNl s, ∀ c ∈ l, csvFieldChar c = true := by
    intro l hl c hc
    have h2 := List.all_eq_true.mp h1 l hl
    exact List.all_eq_true.mp ((Bool.and_eq_true _ _).mp h2).2 c hc
  have hnotmem : ∀ (x : Char), csvFieldChar x = false → ∀ l ∈ splitNl s, x ∉ l := by
    intro x hx l hl hmem
    have h3 := hfield l hl x hmem
    rw [hx] at h3
    exact Bool.false_ne_true h3
  have hdq := hnotmem dq (by decide)
  have hsemi := hnotmem ';' (by decide)
  have htab := hnotmem '\t' (by decide)
  have hpipe := hnotmem '|' (by decide)
  have hqfix : (csvRepairUnclosedQuotes s).fixed = false := by
    rw [show (csvRepairUnclosedQuotes s).fixed = (csvQuoteGo 0 (splitNl s)).fixed from rfl,
      csvQuoteGo_fixed]
    refine List.any_eq_false.mpr (fun l hl => ?_)
    simp [csvQuoteOdd, csvQuoteCount_of_no_dq l (hdq l hl)]
  have hdin : csvDelimTextInput s = s := by
    simp [csvDelimTextInput, hqfix]
  have hsemiF : ∀ l ∈ (splitNl s).filter (fun l => !(trimStr l).isEmpty), ';' ∉ l :=
    fun l hl => hsemi l (List.mem_of_mem_filter hl)
  have htabF : ∀ l ∈ (splitNl s).filter (fun l => !(trimStr l).isEmpty), '\t' ∉ l :=
    fun l hl => htab l (List.mem_of_mem_filter hl)
  have hpipeF : ∀ l ∈ (splitNl s).filter (fun l => !(trimStr l).isEmpty), '|' ∉ l :=
    fun l hl => hpipe l (List.mem_of_mem_filter hl)
  have hprim : csvPrimary ((splitNl s).filter (fun l => !(trimStr l).isEmpty)) = ',' :=
    csvPrimary_eq_comma _ (csvTotalCount_eq_zero _ _ hsemiF)
      (csvTotalCount_eq_zero _ _ htabF) (csvTotalCount_eq_zero _ _ hpipeF)
  have hdfix : (repairInconsistentDelimiters s).fixed = false := by
    by_cases hemp : ((splitNl s).filter (fun l => !(trimStr l).isEmpty)).isEmpty
    · simp [repairInconsistentDelimiters, hemp]
    · have heq : repairInconsistentDelimiters s
          = ⟨(csvDelimGo (csvPrimary ((splitNl s).filter (fun l => !(trimStr l).isEmpty))) 0
                ((splitNl s).filter (fun l => !(trimStr l).isEmpty))).fixed,
              joinNl (csvDelimGo (csvPrimary ((splitNl s).filter (fun l => !(trimStr l).isEmpty))) 0
                ((splitNl s).filter (fun l => !(trimStr l).isEmpty))).lines,
              (csvDelimGo (csvPrimary ((splitNl s).filter (fun l => !(trimStr l).isEmpty))) 0
                ((splitNl s).filter (fun l => !(trimStr l).isEmpty))).issues,
              (csvDelimGo (csvPrimary ((splitNl s).filter (fun l => !(trimStr l).isEmpty))) 0
                ((splitNl s).filter (fun l => !(trimStr l).isEmpty))).fixes⟩ := by
        simp [repairInconsistentDelimiters, hemp]
      rw [heq]
      rw [show (⟨(csvDelimGo (csvPrimary ((splitNl s).filter (fun l => !(trimStr l).isEmpty))) 0
            ((splitNl s).filter (fun l => !(trimStr l).isEmpty))).fixed, _, _, _⟩
          : RepairStepResult).fixed
        = (csvDelimGo (csvPrimary ((splitNl s).filter (fun l => !(trimStr l).isEmpty))) 0
            ((splitNl s).filter (fun l => !(trimStr l).isEmpty))).fixed from rfl]
      rw [csvDelimGo_fixed]
      refine List.any_eq_false.mpr (fun l hl => ?_)
      rw [hprim, csvRewriteLine_id (hsemiF l hl) (htabF l hl) (hpipeF l hl)]
      simp
  rw [repairCsv, hdin]
  simp [hqfix, hdfix, hdin]

/-- C1, corrected: on input that is already valid in the respective format,
every repair entry point returns `repairedText` equal to the input with empty
`issuesFound` and `appliedFixes`; `success` is `true` for JSON (whose repair
has a fast path returning success on a trial parse), but `false` for YAML,
XML and CSV, whose `success` flag means "some fix was applied".  Validity is
the authoritative parser's acceptance: `jsonParseOk` models `JSON.parse`, and
`yamlValidModel` / `xmlValidModel` / `csvValidModel` are conservative
under-approximations of the external js-yaml / fast-xml-parser / papaparse
parsers. -/
theorem claim_C1_repair_on_valid (s : Str) :
    (jsonParseOk s = true → repairJson s = ⟨true, some s, [], []⟩)
    ∧ (yamlValidModel s = true → repairYaml s = ⟨false, some s, [], []⟩)
    ∧ (xmlValidModel s = true → repairXml s = ⟨false, some s, [], []⟩)
    ∧ (csvValidModel s = true → repairCsv s = ⟨false, some s, [], []⟩) := by
  refine ⟨?_, repairYaml_valid, repairXml_valid, repairCsv_valid⟩
  intro h
  rw [repairJson]
  simp [h]

/-- Witness for C1 on concrete valid inputs of each format. -/
theorem claim_C1_repair_on_valid_witness :
    (jsonParseOk ("[1, 2]".toList) = true
      ∧ repairJson ("[1, 2]".toList) = ⟨true, some ("[1, 2]".toList), [], []⟩)
    ∧ (yamlValidModel ("a: 1".toList) = true
      ∧ repairYaml ("a: 1".toList) = ⟨false, some ("a: 1".toList), [], []⟩)
    ∧ (xmlValidModel ("<a>hi</a>".toList) = true
      ∧ repairXml ("<a>hi</a>".toList) = ⟨false, some ("<a>hi</a>".toList), [], []⟩)
    ∧ (csvValidModel ("a,b\n1,2".toList) = true
      ∧ repairCsv ("a,b\n1,2".toList) = ⟨false, some ("a,b\n1,2".toList), [], []⟩) :=
  ⟨⟨by decide, (claim_C1_repair_on_valid ("[1, 2]".toList)).1 (by decide)⟩,
    ⟨by decide, (claim_C1_repair_on_valid ("a: 1".toList)).2.1 (by decide)⟩,
    ⟨by decide, (claim_C1_repair_on_valid ("<a>hi</a>".toList)).2.2.1 (by decide)⟩,
    ⟨by decide, (claim_C1_repair_on_valid ("a,b\n1,2".toList)).2.2.2 (by decide)⟩⟩

/-- C1 is false as stated: `"a: 1"` is valid YAML (accepted by the
authoritative parser, as reflected by the validity model), yet `repairYaml`
returns `success = false` - its success flag is `appliedFixes.length > 0`,
not idempotent acceptance.  The same holds for XML and CSV. -/
theorem claim_C1_counterexample :
    yamlValidModel ("a: 1".toList) = true
    ∧ (repairYaml ("a: 1".toList)).success = false
    ∧ (repairYaml ("a: 1".toList)).repairedText = some ("a: 1".toList)
    ∧ (repairYaml ("a: 1".toList)).issuesFound = []
    ∧ (repairYaml ("a: 1".toList)).appliedFixes = [] := by
  refine ⟨by decide, by decide, by decide, by decide, by decide⟩

/-! ### Format detection (src/services/formatDetection.ts)

Confidence scores are JavaScript numbers combined by additions,
multiplications, `min`/`max` and divisions of small decimals; they are
embedded as rationals. -/

/-- A scorer result `{format, confidence}`. -/
structure DetScore where
  format : Format
  confidence : ℚ
deriving DecidableEq, Repr

/-- `FormatDetectionResult` from src/types/core.ts. -/
structure FormatDetectionResult where
  detectedFormat : Option Format
  confidence : ℚ
  alternatives : List DetScore
deriving DecidableEq, Repr

/-- Model of `/"[^"]*"\s*:\s*/.test(s)`: somewhere in the text, a quoted
string followed by optional whitespace and a colon. -/
def hasJsonKeyPattern : Str → Bool
  | [] => false
  | c :: cs =>
    if c = dq then
      match cs.dropWhile (fun x => !(x = dq)) with
      | _ :: r =>
        if (r.dropWhile isWsChar).head? = some ':' then true else hasJsonKeyPattern cs
      | [] => hasJsonKeyPattern cs
    else hasJsonKeyPattern cs

/-- `detectJson` (formatDetection.ts): bracket delimiters, a key pattern and
a trial parse add weight; a failed trial parse subtracts 0.2 (floored at 0). -/
def detectJson (input : Str) : DetScore :=
  let trimmed := trimStr input
  let c1 : ℚ := if (trimmed.head? = some '{' ∧ trimmed.getLast? = some '}')
      ∨ (trimmed.head? = some '[' ∧ trimmed.getLast? = some ']') then 0.4 else 0
  let c2 := if hasJsonKeyPattern trimmed then c1 + 0.3 else c1
  let c3 := if jsonParseOk trimmed then c2 + 0.3 else max 0 (c2 - 0.2)
  ⟨Format.json, c3⟩

/-- A `\w` word character: alphanumeric or underscore. -/
def isWordChar (c : Char) : Bool := c.isAlphanum || c = '_'

/-- One line matches a YAML indicator: `^---\s*$`, `^\s*-\s+`, `^\s*\w+:\s*`
or `^\s*#`. -/
def yamlLineMatches (l : Str) : Bool :=
  (match l with
    | '-' :: '-' :: '-' :: rest => rest.all isWsChar
    | _ => false)
  || (match l.dropWhile isWsChar with
    | '-' :: c :: _ => isWsChar c
    | _ => false)
  || (let t := l.dropWhile isWsChar
      !(t.takeWhile isWordChar).isEmpty && ((t.dropWhile isWordChar).head? = some ':'))
  || ((l.dropWhile isWsChar).head? = some '#')

/-- `detectYaml` (formatDetection.ts): the fraction of lines matching a YAML
indicator, doubled and capped at 0.8; multiplied by 0.3 when the input looks
bracket-delimited. -/
def detectYaml (input : Str) : DetScore :=
  let lines := splitNl input
  let pm := lines.countP yamlLineMatches
  let c1 : ℚ := if 0 < pm then min 0.8 ((pm : ℚ) / (lines.length : ℚ) * 2) else 0
  let c2 := if (trimStr input).head? = some '{' ∨ (trimStr input).head? = some '['
    then c1 * 0.3 else c1
  ⟨Format.yaml, c2⟩

/-- Model of `/<[^>]+>/.test(s)`. -/
def hasXmlTagPattern : Str → Bool
  | [] => false
  | c :: cs =>
    if c = '<' then
      if !(cs.takeWhile (fun x => !(x = '>'))).isEmpty
          && !(cs.dropWhile (fun x => !(x = '>'))).isEmpty then true
      else hasXmlTagPattern cs
    else hasXmlTagPattern cs

/-- Model of `/<\/[^>]+>/.test(s)`. -/
def hasXmlClosingPattern : Str → Bool
  | [] => false
  | c :: cs =>
    if c = '<' then
      match cs with
      | '/' :: r =>
        if !(r.takeWhile (fun x => !(x = '>'))).isEmpty
            && !(r.dropWhile (fun x => !(x = '>'))).isEmpty then true
        else hasXmlClosingPattern cs
      | _ => hasXmlClosingPattern cs
    else hasXmlClosingPattern cs

/-- `detectXml` (formatDetection.ts): weights for the `<?xml` declaration,
any tag, `<`/`>` delimiters, and a closing tag. -/
def detectXml (input : Str) : DetScore :=
  let trimmed := trimStr input
  let c1 : ℚ := if trimmed.take 5 = "<?xml".toList then 0.4 else 0
  let c2 := if hasXmlTagPattern trimmed then c1 + 0.3 else c1
  let c3 := if trimmed.head? = some '<' ∧ trimmed.getLast? = some '>' then c2 + 0.2 else c2
  let c4 := if hasXmlClosingPattern trimmed then c3 + 0.1 else c3
  ⟨Format.xml, c4⟩

/-- One delimiter candidate of `detectCsv`: when the first line splits into
more than one column, the confidence becomes the maximum of itself and the
fraction of the (up to four) sampled following lines whose column count is
within one of the first line's, times 0.8. -/
def csvStep (lines : List Str) (firstLine : Str) (conf : ℚ) (d : Char) : ℚ :=
  let firstRowCols := (splitCh d firstLine).length
  if 1 < firstRowCols then
    let sample := (lines.drop 1).take (min 5 lines.length - 1)
    let consistent := sample.countP
      (fun l => (((splitCh d l).length : Int) - (firstRowCols : Int)).natAbs ≤ 1)
    if 0 < consistent then
      max conf ((consistent : ℚ) / ((min 4 (lines.length - 1) : Nat) : ℚ) * 0.8)
    else conf
  else conf

/-- `detectCsv` (formatDetection.ts): needs at least two non-blank lines;
takes the maximum over the four delimiter candidates; discounted by 0.2 if
the first line looks like XML or JSON. -/
def detectCsv (input : Str) : DetScore :=
  let lines := (splitNl input).filter (fun l => !(trimStr l).isEmpty)
  if lines.length < 2 then ⟨Format.csv, 0⟩
  else
    let firstLine := lines.getD 0 []
    let c1 := delimiters.foldl (csvStep lines firstLine) 0
    let c2 := if (trimStr firstLine).head? = some '<' ∨ (trimStr firstLine).head? = some '{'
      then c1 * 0.2 else c1
    ⟨Format.csv, c2⟩

/-- The descending-confidence comparison used to sort detection results
(`(a, b) => b.confidence - a.confidence`). -/
def detGE (a b : DetScore) : Prop := b.confidence ≤ a.confidence

instance : DecidableRel detGE :=
  fun a b => inferInstanceAs (Decidable (b.confidence ≤ a.confidence))

instance : IsTotal DetScore detGE := ⟨fun a b => le_total b.confidence a.confidence⟩

instance : IsTrans DetScore detGE := ⟨fun _ _ _ h1 h2 => le_trans h2 h1⟩

/-- `FormatDetectionService.detectFormat`: empty input short-circuits; the
four scorers are filtered to positive confidence and stably sorted
descending; the first is the primary result, the rest the alternatives. -/
def detectFormat (input : Str) : FormatDetectionResult :=
  if (trimStr input).isEmpty then ⟨none, 0, []⟩
  else
    match List.insertionSort detGE
        (([detectJson input, detectYaml input, detectXml input, detectCsv input]).filter
          (fun r => 0 < r.confidence)) with
    | [] => ⟨none, 0, []⟩
    | primary :: alternatives => ⟨some primary.format, primary.confidence, alternatives⟩

theorem detectJson_bounds (input : Str) :
    0 ≤ (detectJson input).confidence ∧ (detectJson input).confidence ≤ 1 := by
  unfold detectJson
  dsimp only
  split_ifs <;> constructor <;> norm_num [le_max_iff, max_le_iff]

theorem detectYaml_bounds (input : Str) :
    0 ≤ (detectYaml input).confidence ∧ (detectYaml input).confidence ≤ 1 := by
  have hx : (0:ℚ) ≤ ((splitNl input).countP yamlLineMatches : ℚ)
      / ((splitNl input).length : ℚ) * 2 := by positivity
  have hm1 : (0:ℚ) ≤ min 0.8 (((splitNl input).countP yamlLineMatches : ℚ)
      / ((splitNl input).length : ℚ) * 2) := le_min (by norm_num) hx
  have hm2 : min 0.8 (((splitNl input).countP yamlLineMatches : ℚ)
      / ((splitNl input).length : ℚ) * 2) ≤ 0.8 := min_le_left _ _
  unfold detectYaml
  dsimp only
  split_ifs <;> constructor <;> nlinarith [hm1, hm2]

theorem detectXml_bounds (input : Str) :
    0 ≤ (detectXml input).confidence ∧ (detectXml input).confidence ≤ 1 := by
  unfold detectXml
  dsimp only
  split_ifs <;> constructor <;> norm_num

theorem csvStep_bounds (lines : List Str) (firstLine : Str)
    (hlen : 2 ≤ lines.length) (conf : ℚ) (d : Char)
    (h0 : 0 ≤ conf) (h1 : conf ≤ 0.8) :
    0 ≤ csvStep lines firstLine conf d ∧ csvStep lines firstLine conf d ≤ 0.8 := by
  unfold csvStep
  dsimp only
  split_ifs with hcols hcons
  · have hcount : ((lines.drop 1).take (min 5 lines.length - 1)).countP
        (fun l => (((splitCh d l).length : Int) - (((splitCh d firstLine).length : Nat) : Int)).natAbs ≤ 1)
        ≤ min 4 (lines.length - 1) := by
      have hc := List.countP_le_length
        (p := fun l => (((splitCh d l).length : Int) - (((splitCh d firstLine).length : Nat) : Int)).natAbs ≤ 1)
        (l := (lines.drop 1).take (min 5 lines.length - 1))
      have hlen2 : ((lines.drop 1).take (min 5 lines.length - 1)).length
          = min (min 5 lines.length - 1) (lines.length - 1) := by
        rw [List.length_take, List.length_drop]
      omega
    have hdenom : 1 ≤ min 4 (lines.length - 1) := by omega
    have hdenomQ : (0:ℚ) < ((min 4 (lines.length - 1) : Nat) : ℚ) := by
      exact_mod_cast hdenom
    have hdiv : (((lines.drop 1).take (min 5 lines.length - 1)).countP
        (fun l => (((splitCh d l).length : Int) - (((splitCh d firstLine).length : Nat) : Int)).natAbs ≤ 1) : ℚ)
        / ((min 4 (lines.length - 1) : Nat) : ℚ) ≤ 1 := by
      rw [div_le_one hdenomQ]
      exact_mod_cast hcount
    constructor
    · exact le_trans h0 (le_max_left _ _)
    · apply max_le h1
      nlinarith [hdiv, hdenomQ]
  · exact ⟨h0, h1⟩
  · exact ⟨h0, h1⟩

theorem csvFold_bounds (lines : List Str) (firstLine : Str) (hlen : 2 ≤ lines.length) :
    ∀ (ds : List Char) (conf : ℚ), 0 ≤ conf → conf ≤ 0.8 →
      0 ≤ ds.foldl (csvStep lines firstLine) conf
      ∧ ds.foldl (csvStep lines firstLine) conf ≤ 0.8 := by
  intro ds
  induction ds with
  | nil => intro conf h0 h1; exact ⟨h0, h1⟩
  | cons d ds ih =>
    intro conf h0 h1
    have hstep := csvStep_bounds lines firstLine hlen conf d h0 h1
    exact ih _ hstep.1 hstep.2

theorem detectCsv_bounds (input : Str) :
    0 ≤ (detectCsv input).confidence ∧ (detectCsv input).confidence ≤ 1 := by
  unfold detectCsv
  dsimp only
  split_ifs with h1 h2
  · norm_num
  · have hlen : 2 ≤ ((splitNl input).filter (fun l => !(trimStr l).isEmpty)).length := by
      omega
    have hb := csvFold_bounds ((splitNl input).filter (fun l => !(trimStr l).isEmpty))
      (((splitNl input).filter (fun l => !(trimStr l).isEmpty)).getD 0 [])
      hlen delimiters 0 (le_refl 0) (by norm_num)
    constructor
    · nlinarith [hb.1]
    · nlinarith [hb.1, hb.2]
  · have hlen : 2 ≤ ((splitNl input).filter (fun l => !(trimStr l).isEmpty)).length := by
      omega
    have hb := csvFold_bounds ((splitNl input).filter (fun l => !(trimStr l).isEmpty))
      (((splitNl input).filter (fun l => !(trimStr l).isEmpty)).getD 0 [])
      hlen delimiters 0 (le_refl 0) (by norm_num)
    constructor
    · exact hb.1
    · nlinarith [hb.2]

/-- C5: for every input, `detectFormat` returns a confidence in the closed
interval `[0, 1]`; the detected format is `none` exactly when the confidence
is `0`; every alternative's confidence is at most the primary confidence;
and the alternatives are sorted in descending confidence order. -/
theorem claim_C5_detection_invariants (input : Str) :
    (0 ≤ (detectFormat input).confidence ∧ (detectFormat input).confidence ≤ 1)
    ∧ ((detectFormat input).detectedFormat = none ↔ (detectFormat input).confidence = 0)
    ∧ (∀ a ∈ (detectFormat input).alternatives,
        a.confidence ≤ (detectFormat input).confidence)
    ∧ (detectFormat input).alternatives.Pairwise
        (fun a b => b.confidence ≤ a.confidence) := by
  unfold detectFormat
  split_ifs with hempty
  · refine ⟨⟨le_refl 0, by norm_num⟩, by simp, by simp, by simp⟩
  · split
    · refine ⟨⟨le_refl 0, by norm_num⟩, by simp, by simp, by simp⟩
    · rename_i primary alternatives heq
      have hmem : primary ∈ List.insertionSort detGE
          (([detectJson input, detectYaml input, detectXml input,
            detectCsv input]).filter (fun r => 0 < r.confidence)) := by
        rw [heq]; exact List.mem_cons_self _ _
      have hperm := List.perm_insertionSort detGE
        (([detectJson input, detectYaml input, detectXml input,
          detectCsv input]).filter (fun r => 0 < r.confidence))
      have hmem2 := hperm.subset hmem
      have hmem3 := List.mem_filter.mp hmem2
      have hpos : 0 < primary.confidence := by
        have := hmem3.2; simpa using this
      have hub : primary.confidence ≤ 1 := by
        have h4 := hmem3.1
        simp only [List.mem_cons, List.not_mem_nil, or_false] at h4
        rcases h4 with h | h | h | h
        · rw [h]; exact (detectJson_bounds input).2
        · rw [h]; exact (detectYaml_bounds input).2
        · rw [h]; exact (detectXml_bounds input).2
        · rw [h]; exact (detectCsv_bounds input).2
      have hsorted : List.Sorted detGE (List.insertionSort detGE
          (([detectJson input, detectYaml input, detectXml input,
            detectCsv input]).filter (fun r => 0 < r.confidence))) :=
        List.sorted_insertionSort detGE _
      rw [heq] at hsorted
      have hcons := List.sorted_cons.mp hsorted
      refine ⟨⟨le_of_lt hpos, hub⟩, ?_, ?_, ?_⟩
      · simp only [FormatDetectionResult.detectedFormat, FormatDetectionResult.confidence]
        constructor
        · intro h; exact absurd h (by simp)
        · intro h; exact absurd h (ne_of_gt hpos)
      · intro a ha
        exact hcons.1 a ha
      · exact List.Pairwise.imp (fun h => h) hcons.2

theorem claim_C5_detection_invariants_witness :
    (0 ≤ (detectFormat ('a' :: [])).confidence
      ∧ (detectFormat ('a' :: [])).confidence ≤ 1)
    ∧ ((detectFormat ('a' :: [])).detectedFormat = none
      ↔ (detectFormat ('a' :: [])).confidence = 0)
    ∧ (∀ a ∈ (detectFormat ('a' :: [])).alternatives,
        a.confidence ≤ (detectFormat ('a' :: [])).confidence)
    ∧ (detectFormat ('a' :: [])).alternatives.Pairwise
        (fun a b => b.confidence ≤ a.confidence) :=
  claim_C5_detection_invariants ('a' :: [])

/-! ### The conversion controller (src/services/conversionController.ts) -/

theorem joinNl_eq_nil {ls : List Str} (h : joinNl ls = []) : ls = [] ∨ ls = [[]] := by
  match ls with
  | [] => exact Or.inl rfl
  | [l] =>
    refine Or.inr ?_
    simp only [joinNl, joinCh] at h
    rw [h]
  | l :: l' :: ls' =>
    exfalso
    simp [joinNl, joinCh] at h

theorem replaceTabs_eq_nil {l : Str} (h : replaceTabs l = []) : l = [] := by
  cases l with
  | nil => rfl
  | cons c cs =>
    exfalso
    by_cases hc : c = '\t' <;> simp [replaceTabs, hc] at h

theorem csvFixLine_eq_nil {l : Str} (h : csvFixLine l = []) : l = [] := by
  unfold csvFixLine at h
  split_ifs at h with h1
  · exact absurd h (by simp)
  · exact h

theorem csvRewriteStep_length (primary : Char) (st : Str × Bool) (d : Char) :
    ((csvRewriteStep primary st d).1).length = st.1.length := by
  unfold csvRewriteStep
  split_ifs <;> simp [replaceChar]

theorem csvRewriteFold_length (primary : Char) :
    ∀ (ds : List Char) (st : Str × Bool),
      ((ds.foldl (csvRewriteStep primary) st).1).length = st.1.length := by
  intro ds
  induction ds with
  | nil => intro st; rfl
  | cons d ds ih =>
    intro st
    rw [List.foldl_cons, ih (csvRewriteStep primary st d), csvRewriteStep_length]

theorem csvRewriteLine_length (primary : Char) (l : Str) :
    ((csvRewriteLine primary l).1).length = l.length :=
  csvRewriteFold_length primary delimiters (l, false)

/-- A successful `repairJson` never reports an empty repaired text. -/
theorem repairJson_success_ne_nil {input t : Str}
    (hs : (repairJson input).success = true)
    (ht : (repairJson input).repairedText = some t) : t ≠ [] := by
  intro hnil
  subst hnil
  unfold repairJson at hs ht
  split_ifs at hs ht with h
  · dsimp only at ht
    have := Option.some.inj ht
    exact ne_nil_of_jsonParseOk h this
  · dsimp only at hs ht
    have hteq := Option.some.inj ht
    rw [hteq] at hs
    rw [jsonParseOk_nil] at hs
    exact Bool.false_ne_true hs

/-- A successful `repairYaml` never reports an empty repaired text. -/
theorem repairYaml_success_ne_nil {input t : Str}
    (hs : (repairYaml input).success = true)
    (ht : (repairYaml input).repairedText = some t) : t ≠ [] := by
  intro hnil
  subst hnil
  rw [repairYaml_eq] at hs ht
  dsimp only at hs ht
  have hj : joinNl ((splitNl input).map yamlFixLine) = [] := Option.some.inj ht
  rcases joinNl_eq_nil hj with h | h
  · exact splitNl_ne_nil input (List.map_eq_nil_iff.mp h)
  · cases hsp : splitNl input with
    | nil => exact splitNl_ne_nil input hsp
    | cons l ls =>
      rw [hsp] at h
      cases ls with
      | cons l2 ls2 => simp at h
      | nil =>
        simp only [List.map_cons, List.map_nil, List.cons.injEq, and_true] at h
        have hl : l = [] := by
          unfold yamlFixLine at h
          split_ifs at h with h1 h2
          · exact h
          · exact replaceTabs_eq_nil h
          · exact h
        subst hl
        have hinput : input = [] := by
          have h2 := joinNl_splitNl input
          rw [hsp] at h2
          simpa [joinNl, joinCh] using h2.symm
        subst hinput
        exact absurd hs (by decide)

/-- If the unclosed-tag pass fixed something, its output text is non-empty. -/
theorem repairUnclosedTags_fixed_text {input : Str}
    (h : (repairUnclosedTags input).fixed = true) :
    (repairUnclosedTags input).text ≠ [] := by
  unfold repairUnclosedTags at h ⊢
  dsimp only at h ⊢
  by_cases hemp : (xmlScanGo (splitNl input) input.length input 0 1 0 [] []).1.isEmpty
  · rw [if_pos hemp] at h
    exact absurd h (by simp)
  · rw [if_neg hemp]
    intro hnil
    dsimp only at hnil
    rcases List.append_eq_nil.mp hnil with ⟨_, h2⟩
    have hne : (xmlScanGo (splitNl input) input.length input 0 1 0 [] []).1 ≠ [] := by
      simpa [List.isEmpty_iff] using hemp
    cases hst : (xmlScanGo (splitNl input) input.length input 0 1 0 [] []).1 with
    | nil => exact hne hst
    | cons e es =>
      rw [hst] at h2
      simp at h2

/-- A successful `repairXml` never reports an empty repaired text. -/
theorem repairXml_success_ne_nil {input t : Str}
    (hs : (repairXml input).success = true)
    (ht : (repairXml input).repairedText = some t) : t ≠ [] := by
  intro hnil
  subst hnil
  unfold repairXml at hs ht
  dsimp only at hs ht
  by_cases hfix : (repairUnclosedTags input).fixed
  · rw [if_pos hfix] at ht
    exact repairUnclosedTags_fixed_text hfix (Option.some.inj ht)
  · rw [if_neg hfix] at hs
    simp at hs

/-- A successful `repairCsv` never reports an empty repaired text. -/
theorem repairCsv_success_ne_nil {input t : Str}
    (hs : (repairCsv input).success = true)
    (ht : (repairCsv input).repairedText = some t) : t ≠ [] := by
  intro hnil
  subst hnil
  unfold repairCsv at hs ht
  dsimp only at hs ht
  have htx := Option.some.inj ht
  by_cases hdf : (repairInconsistentDelimiters (csvDelimTextInput input)).fixed
  · rw [if_pos hdf] at htx
    unfold repairInconsistentDelimiters at hdf htx
    dsimp only at hdf htx
    by_cases hemp : ((splitNl (csvDelimTextInput input)).filter
        (fun l => !(trimStr l).isEmpty)).isEmpty
    · rw [if_pos hemp] at hdf
      exact absurd hdf (by simp)
    · rw [if_neg hemp] at hdf htx
      dsimp only at hdf htx
      rw [csvDelimGo_lines] at htx
      rcases joinNl_eq_nil htx with h | h
      · rw [List.map_eq_nil_iff.mp h] at hemp
        simp at hemp
      · cases hsp : (splitNl (csvDelimTextInput input)).filter
            (fun l => !(trimStr l).isEmpty) with
        | nil => rw [hsp] at hemp; simp at hemp
        | cons l ls =>
          rw [hsp] at h
          cases ls with
          | cons l2 ls2 => simp at h
          | nil =>
            simp only [List.map_cons, List.map_nil, List.cons.injEq, and_true] at h
            have hlen : l.length = 0 := by
              rw [← csvRewriteLine_length (csvPrimary (l :: [])) l]
              rw [← hsp] at h ⊢
              rw [h]
              rfl
            have hl : l = [] := List.length_eq_zero.mp hlen
            have hmem : l ∈ (splitNl (csvDelimTextInput input)).filter
                (fun l => !(trimStr l).isEmpty) := by
              rw [hsp]; exact List.mem_cons_self l []
            have hnb := (List.mem_filter.mp hmem).2
            rw [hl] at hnb
            simp [trimStr] at hnb
  · rw [if_neg hdf] at htx hs
    by_cases hqf : (csvRepairUnclosedQuotes input).fixed
    · unfold csvDelimTextInput at htx
      dsimp only at htx
      rw [if_pos hqf] at htx
      unfold csvRepairUnclosedQuotes at htx
      dsimp only at htx
      rw [csvQuoteGo_lines] at htx
      rcases joinNl_eq_nil htx with h | h
      · exact splitNl_ne_nil input (List.map_eq_nil_iff.mp h)
      · cases hsp : splitNl input with
        | nil => exact splitNl_ne_nil input hsp
        | cons l ls =>
          rw [hsp] at h
          cases ls with
          | cons l2 ls2 => simp at h
          | nil =>
            simp only [List.map_cons, List.map_nil, List.cons.injEq, and_true] at h
            have hl : l = [] := csvFixLine_eq_nil h
            subst hl
            have hinput : input = [] := by
              have h2 := joinNl_splitNl input
              rw [hsp] at h2
              simpa [joinNl, joinCh] using h2.symm
            subst hinput
            exact absurd hqf (by decide)
    · rw [if_neg hqf] at hs
      simp at hs

/-- A conversion error entry (line, column, message, severity). -/
structure ConvError where
  line : Nat
  column : Nat
  message : String
  severity : String
deriving DecidableEq, Repr

/-- Model of `ParseResult` (types/core.ts): the parsed data is abstract. -/
structure ParseResultM (D : Type) where
  success : Bool
  data : Option D
  errors : List ConvError
  warnings : List String

/-- Model of `SerializationResult` (types/core.ts). -/
structure SerializationResultM where
  success : Bool
  output : Option Str
  errors : List String
  warnings : List String

/-- Model of `ConversionMetadata` (types/core.ts).  `performance.now()`
timing is not modelled: `processingTime` is always `0`. -/
structure ConversionMetadata where
  inputFormat : Format
  outputFormat : Format
  processingTime : ℚ
  dataSize : Nat
  repairApplied : Bool
deriving DecidableEq, Repr

/-- Model of `ConversionResult` (types/core.ts). -/
structure ConversionResultM where
  success : Bool
  output : Option Str
  errors : List ConvError
  warnings : List String
  metadata : Option ConversionMetadata
deriving DecidableEq, Repr

/-- The only option `convert` reads is `repairSyntax`; the serializer
receives the whole options object, modelled by this record. -/
structure ConversionOptionsM where
  repairSyntax : Bool
deriving DecidableEq, Repr

/-- The parser, serializer and data-loss checker dependencies of the
controller, abstract over the parsed-data type `D`.  The controller
constructor registers a parser and a serializer for every `SupportedFormat`,
so the lookup maps are modelled as total functions and the
`Unsupported input format` / `Unsupported output format` branches of
`convert` are unreachable. -/
structure ConvertDeps (D : Type) where
  parse : Format → Str → ParseResultM D
  serialize : Format → Option D → ConversionOptionsM → SerializationResultM
  checkDataLossWarnings : Option D → Format → Format → List String

/-- `ConversionControllerImpl.repairSyntax`: dispatch on the source format
(the `default` branch is unreachable for the four supported formats). -/
def repairSyntaxM (input : Str) : Format → RepairResult
  | Format.json => repairJson input
  | Format.yaml => repairYaml input
  | Format.xml => repairXml input
  | Format.csv => repairCsv input

/-- JavaScript truthiness of an optional string: `undefined`, `null` and
`""` are falsy. -/
def truthyText : Option Str → Option Str
  | some t => if t = [] then none else some t
  | none => none

/-- Step 1 of `convert` (conversionController.ts, lines 69-76): when
`options.repairSyntax` is set and the repair result satisfies
`repairResult.success && repairResult.repairedText`, the working input
becomes the repaired text and the repair-applied flag is raised. -/
def convertStep1 (opts : ConversionOptionsM) (input : Str) (fromFormat : Format) :
    Str × Bool :=
  if opts.repairSyntax then
    let rr := repairSyntaxM input fromFormat
    if rr.success then
      match truthyText rr.repairedText with
      | some t => (t, true)
      | none => (input, false)
    else (input, false)
  else (input, false)

/-- `ConversionControllerImpl.convert` (conversionController.ts, lines
59-150): optional repair, parse of the working input, data-loss check,
serialization; the metadata is only produced on overall success. -/
def convert {D : Type} (deps : ConvertDeps D) (input : Str)
    (fromFormat toFormat : Format) (opts : ConversionOptionsM) : ConversionResultM :=
  let step1 := convertStep1 opts input fromFormat
  let parseResult := deps.parse fromFormat step1.1
  if parseResult.success then
    let warnings := deps.checkDataLossWarnings parseResult.data fromFormat toFormat
    let serializationResult := deps.serialize toFormat parseResult.data opts
    if serializationResult.success then
      ⟨true, serializationResult.output, [],
        warnings ++ serializationResult.warnings,
        some ⟨fromFormat, toFormat, 0, input.length, step1.2⟩⟩
    else
      ⟨false, none,
        serializationResult.errors.map (fun msg => ⟨1, 1, msg, "error"⟩),
        warnings ++ serializationResult.warnings, none⟩
  else ⟨false, none, parseResult.errors, parseResult.warnings, none⟩

/-- The preview record returned by `getRepairPreview`. -/
structure RepairPreview where
  original : Str
  repaired : Option Str
  issues : List RepairIssue
  fixes : List String
  success : Bool
deriving DecidableEq, Repr

/-- `ConversionControllerImpl.getRepairPreview` (conversionController.ts,
lines 199-220): one call to `repairSyntax`, with
`repaired := repairResult.repairedText || null`. -/
def getRepairPreview (input : Str) (format : Format) : RepairPreview :=
  let rr := repairSyntaxM input format
  ⟨input, truthyText rr.repairedText, rr.issuesFound, rr.appliedFixes, rr.success⟩

/-- Trivial dependencies: every parse and serialization succeeds. -/
def trivDeps : ConvertDeps Unit :=
  ⟨fun _ _ => ⟨true, some (), [], []⟩,
   fun _ _ _ => ⟨true, some ['x'], [], []⟩,
   fun _ _ _ => []⟩

theorem convert_metadata_eq {D : Type} (deps : ConvertDeps D) (input : Str)
    (fromFormat toFormat : Format) (opts : ConversionOptionsM) (m : ConversionMetadata)
    (hm : (convert deps input fromFormat toFormat opts).metadata = some m) :
    m = ⟨fromFormat, toFormat, 0, input.length, (convertStep1 opts input fromFormat).2⟩ := by
  unfold convert at hm
  dsimp only at hm
  by_cases h1 : (deps.parse fromFormat (convertStep1 opts input fromFormat).1).success
  · rw [if_pos h1] at hm
    by_cases h2 : (deps.serialize toFormat
        (deps.parse fromFormat (convertStep1 opts input fromFormat).1).data opts).success
    · rw [if_pos h2] at hm
      dsimp only at hm
      exact (Option.some.inj hm).symm
    · rw [if_neg h2] at hm
      exact absurd hm (by simp)
  · rw [if_neg h1] at hm
    exact absurd hm (by simp)

theorem repairSyntaxM_success_ne_nil {input t : Str} (format : Format)
    (hs : (repairSyntaxM input format).success = true)
    (ht : (repairSyntaxM input format).repairedText = some t) : t ≠ [] := by
  cases format with
  | json => exact repairJson_success_ne_nil hs ht
  | yaml => exact repairYaml_success_ne_nil hs ht
  | xml => exact repairXml_success_ne_nil hs ht
  | csv => exact repairCsv_success_ne_nil hs ht

/-- C6: in `convert` with `options.repairSyntax` enabled, a failed repair
leaves the parser input equal to the original text with
`metadata.repairApplied = false`, while a successful repair with a repaired
text hands exactly that text to the parser with
`metadata.repairApplied = true` (the parser is applied to
`(convertStep1 opts input fromFormat).1` by definition of `convert`). -/
theorem claim_C6_repair_gating {D : Type} (deps : ConvertDeps D) (input : Str)
    (fromFormat toFormat : Format) (opts : ConversionOptionsM) (m : ConversionMetadata)
    (hopt : opts.repairSyntax = true)
    (hm : (convert deps input fromFormat toFormat opts).metadata = some m) :
    ((repairSyntaxM input fromFormat).success = false →
      convertStep1 opts input fromFormat = (input, false) ∧ m.repairApplied = false)
    ∧ (∀ t, (repairSyntaxM input fromFormat).success = true →
        (repairSyntaxM input fromFormat).repairedText = some t →
        convertStep1 opts input fromFormat = (t, true) ∧ m.repairApplied = true) := by
  have hme := convert_metadata_eq deps input fromFormat toFormat opts m hm
  constructor
  · intro hf
    have hstep : convertStep1 opts input fromFormat = (input, false) := by
      simp [convertStep1, hopt, hf]
    exact ⟨hstep, by simp [hme, hstep]⟩
  · intro t htrue hsome
    have hne : t ≠ [] := repairSyntaxM_success_ne_nil fromFormat htrue hsome
    have hstep : convertStep1 opts input fromFormat = (t, true) := by
      simp [convertStep1, hopt, htrue, hsome, truthyText, hne]
    exact ⟨hstep, by simp [hme, hstep]⟩

theorem claim_C6_repair_gating_witness :
    (((repairSyntaxM ("a:\tb".toList) Format.yaml).success = false →
      convertStep1 ⟨true⟩ ("a:\tb".toList) Format.yaml = ("a:\tb".toList, false)
        ∧ (⟨Format.yaml, Format.json, 0, ("a:\tb".toList).length, true⟩
            : ConversionMetadata).repairApplied = false)
    ∧ (∀ t, (repairSyntaxM ("a:\tb".toList) Format.yaml).success = true →
        (repairSyntaxM ("a:\tb".toList) Format.yaml).repairedText = some t →
        convertStep1 ⟨true⟩ ("a:\tb".toList) Format.yaml = (t, true)
          ∧ (⟨Format.yaml, Format.json, 0, ("a:\tb".toList).length, true⟩
              : ConversionMetadata).repairApplied = true))
    ∧ (repairSyntaxM ("a:\tb".toList) Format.yaml).success = true
    ∧ (repairSyntaxM ("a:\tb".toList) Format.yaml).repairedText = some ("a:  b".toList) :=
  ⟨claim_C6_repair_gating trivDeps ("a:\tb".toList) Format.yaml Format.json ⟨true⟩
      ⟨Format.yaml, Format.json, 0, ("a:\tb".toList).length, true⟩ rfl (by decide),
    by decide, by decide⟩

/-- C9: with `repairSyntax` enabled and a source text that already parses as
JSON, `repairJson`'s trial-parse fast path returns `success: true` with the
unchanged input and zero fixes, so `convert` hands the parser the original
text yet still reports `metadata.repairApplied = true`. -/
theorem claim_C9_valid_json_repair_flag {D : Type} (deps : ConvertDeps D) (input : Str)
    (toFormat : Format) (opts : ConversionOptionsM) (m : ConversionMetadata)
    (hopt : opts.repairSyntax = true)
    (hvalid : jsonParseOk input = true)
    (hm : (convert deps input Format.json toFormat opts).metadata = some m) :
    m.repairApplied = true
    ∧ (convertStep1 opts input Format.json).1 = input
    ∧ (repairSyntaxM input Format.json).appliedFixes = [] := by
  have hrr : repairSyntaxM input Format.json = ⟨true, some input, [], []⟩ := by
    show repairJson input = _
    unfold repairJson
    rw [if_pos hvalid]
  have hne := ne_nil_of_jsonParseOk hvalid
  have hstep : convertStep1 opts input Format.json = (input, true) := by
    simp [convertStep1, hopt, hrr, truthyText, hne]
  have hme := convert_metadata_eq deps input Format.json toFormat opts m hm
  exact ⟨by simp [hme, hstep], by rw [hstep], by rw [hrr]⟩

theorem claim_C9_valid_json_repair_flag_witness :
    (⟨Format.json, Format.yaml, 0, ("[1, 2]".toList).length, true⟩
        : ConversionMetadata).repairApplied = true
    ∧ (convertStep1 ⟨true⟩ ("[1, 2]".toList) Format.json).1 = "[1, 2]".toList
    ∧ (repairSyntaxM ("[1, 2]".toList) Format.json).appliedFixes = [] :=
  claim_C9_valid_json_repair_flag trivDeps ("[1, 2]".toList) Format.yaml ⟨true⟩
    ⟨Format.json, Format.yaml, 0, ("[1, 2]".toList).length, true⟩
    rfl (by decide) (by decide)

/-- C7 (amended): `getRepairPreview` returns the same original text, success
flag, issues and fixes as a direct call to the repair entry point, and the
same repaired text exactly when that text is not the empty string - the
`repairedText || null` coercion collapses an empty repaired text to `null`. -/
theorem claim_C7_preview_agrees (input : Str) (format : Format) :
    (getRepairPreview input format).original = input
    ∧ (getRepairPreview input format).success = (repairSyntaxM input format).success
    ∧ (getRepairPreview input format).issues = (repairSyntaxM input format).issuesFound
    ∧ (getRepairPreview input format).fixes = (repairSyntaxM input format).appliedFixes
    ∧ ((getRepairPreview input format).repaired = (repairSyntaxM input format).repairedText
        ↔ (repairSyntaxM input format).repairedText ≠ some []) := by
  refine ⟨rfl, rfl, rfl, rfl, ?_⟩
  show truthyText (repairSyntaxM input format).repairedText
      = (repairSyntaxM input format).repairedText
    ↔ (repairSyntaxM input format).repairedText ≠ some []
  cases hrt : (repairSyntaxM input format).repairedText with
  | none => simp [truthyText]
  | some t =>
    cases t with
    | nil => simp [truthyText]
    | cons c cs => simp [truthyText]

theorem claim_C7_counterexample :
    (getRepairPreview [] Format.json).repaired
      ≠ (repairSyntaxM [] Format.json).repairedText := by decide
